import Mathlib

/-
  Verification development for the SSIS package modernization tool
  (`upgrade_ssis_packages_unified.py`).

  The tool is a rule-driven text substitution engine: for a fixed table of
  (regex pattern, replacement) pairs it runs, per rule and per attribute
  name, one `re.sub` of the pattern `attr="(pat)"` over the file content,
  replacing each match with `attr="repl"` and counting matches.

  All regex patterns appearing in the tool's tables have one of three shapes:
    - an exact literal (plain names such as `DTSTransform\.Sort\.3`, and
      brace-delimited GUIDs such as `\{5B201335-...\}`);
    - a literal followed by an optional version suffix `(\.\d+)?`;
    - a literal with wildcard context `[^"]*lit[^"]*`.
  The embedding below models exactly these three shapes (`Pat`), and models
  `re.sub`'s left-to-right, non-overlapping scan with resumption after each
  match (`scanCharF` / `re_sub`).

  Modelling conventions:
    - file content is a `List Char`;
    - `\d` is modelled as an ASCII digit, and `re.IGNORECASE` as ASCII
      case folding (the identifiers in the tables are all ASCII);
    - file-system effects are modelled by pure state passing (`DtsxFile`,
      `Stats`, `ProcResult`): a read or backup failure is an oracle bit on
      the file record.
-/

set_option maxRecDepth 100000

/-! ### Character-level primitives -/

/-- Case-insensitive-capable character equality: with `ci = true` compare
ASCII-lowered characters (model of `re.IGNORECASE`), else exact equality. -/
def eqC (ci : Bool) (a b : Char) : Bool :=
  if ci then a.toLower == b.toLower else a == b

/-- Match a literal list of pattern characters against the head of the input;
on success return the rest of the input. -/
def matchChars (ci : Bool) : List Char → List Char → Option (List Char)
  | [], input => some input
  | _ :: _, [] => none
  | c :: s, d :: input => if eqC ci c d then matchChars ci s input else none

/-- Does `s` occur at the head of `v`? -/
def startsWithB (ci : Bool) : List Char → List Char → Bool
  | [], _ => true
  | _ :: _, [] => false
  | a :: s, b :: v => eqC ci a b && startsWithB ci s v

/-- Does `s` occur as a contiguous run anywhere inside `v`? -/
def hasSubB (ci : Bool) (s : List Char) : List Char → Bool
  | [] => s.isEmpty
  | c :: v => startsWithB ci s (c :: v) || hasSubB ci s (c :: v).tail

/-- The three regex shapes used by the tool's rule tables. -/
inductive Pat where
  /-- an exact literal, e.g. `DTSTransform\.Sort\.3` or a `\{GUID\}` -/
  | exact (s : List Char)
  /-- a literal with an optional version suffix: `lit(\.\d+)?` -/
  | optNumSuffix (s : List Char)
  /-- a literal with wildcard context: `[^"]*lit[^"]*` -/
  | contains (s : List Char)
deriving DecidableEq

/-- Match a rule pattern followed by the closing quote `"` of the attribute
value; the input starts right after the opening quote.  On success return the
input remaining after the closing quote.  Mirrors the backtracking behavior of
Python's `re` on the three pattern shapes (the quantified parts can never
cross a `"` character). -/
def matchVal (ci : Bool) : Pat → List Char → Option (List Char)
  | .exact s, input =>
    match matchChars ci s input with
    | some ('"' :: r) => some r
    | _ => none
  | .optNumSuffix s, input =>
    match matchChars ci s input with
    | some ('"' :: r) => some r
    | some ('.' :: r) =>
      if (r.takeWhile Char.isDigit).isEmpty then none
      else
        match r.dropWhile Char.isDigit with
        | '"' :: r2 => some r2
        | _ => none
    | _ => none
  | .contains s, input =>
    if hasSubB ci s (input.takeWhile (fun c => c ≠ '"')) then
      match input.dropWhile (fun c => c ≠ '"') with
      | '"' :: r => some r
      | _ => none
    else none

/-- Try to match the full site regex `attr="(pat)"` at the head of the input;
on success return the input remaining after the match. -/
def tryMatch (attr : List Char) (ci : Bool) (p : Pat) (input : List Char) :
    Option (List Char) :=
  match matchChars ci (attr ++ ['=', '"']) input with
  | some r => matchVal ci p r
  | none => none

/-- The text emitted for each match: `attr="repl"` with the canonical attribute
spelling (Python builds the replacement from the canonical name, so a
case-insensitive match also canonicalizes the attribute name). -/
def siteText (attr repl : List Char) : List Char :=
  attr ++ '=' :: '"' :: (repl ++ ['"'])

/-- Fuel-indexed left-to-right scan: at each position try the site regex; on a
match emit the replacement text, bump the counter and resume after the match
(`re.sub` semantics); otherwise emit the character and move one position.
Each step consumes at least one input character, so `fuel = input.length`
suffices (see `re_sub`). -/
def scanCharF (attr : List Char) (ci : Bool) (p : Pat) (repl : List Char) :
    Nat → List Char → List Char × Nat
  | 0, l => (l, 0)
  | _ + 1, [] => ([], 0)
  | fuel + 1, c :: cs =>
    match tryMatch attr ci p (c :: cs) with
    | some rest =>
      let r := scanCharF attr ci p repl fuel rest
      (attr ++ '=' :: '"' :: (repl ++ '"' :: r.1), r.2 + 1)
    | none =>
      let r := scanCharF attr ci p repl fuel cs
      (c :: r.1, r.2)

/-- `re.sub(f'{attr}="({pat})"', f'{attr}="{repl}"', content)` together with
the number of replacements performed. -/
def re_sub (attr : List Char) (ci : Bool) (p : Pat) (repl : List Char)
    (content : List Char) : List Char × Nat :=
  scanCharF attr ci p repl content.length content

/-! ### Rule tables (from the module-level constants of the source) -/

/-- `EXECUTABLE_TYPE_MAPPINGS`: ExecutableType/CreationName patterns. -/
def EXECUTABLE_TYPE_MAPPINGS : List (Pat × List Char) := [
  (Pat.exact "{5918251B-2970-45A4-AB5F-01C3C588FE5A}".data, "Microsoft.Pipeline".data),
  (Pat.optNumSuffix "SSIS.Pipeline".data, "Microsoft.Pipeline".data),
  (Pat.optNumSuffix "SSIS.ExecutePackageTask".data, "Microsoft.ExecutePackageTask".data),
  (Pat.optNumSuffix "SSIS.Package".data, "Microsoft.Package".data),
  (Pat.contains "Microsoft.SqlServer.ExecProcTask".data, "Microsoft.ExecuteProcess".data),
  (Pat.contains "Microsoft.SqlServer.SQLTask".data, "Microsoft.ExecuteSQLTask".data),
  (Pat.contains "Microsoft.SqlServer.ExpressionTask".data, "Microsoft.ExpressionTask".data),
  (Pat.contains "Microsoft.SqlServer.FileSystemTask".data, "Microsoft.FileSystemTask".data),
  (Pat.contains "Microsoft.SqlServer.ScriptTask".data, "Microsoft.ScriptTask".data),
  (Pat.contains "Microsoft.SqlServer.TransferDatabasesTask".data, "Microsoft.TransferDatabaseTask".data),
  (Pat.contains "DbMaintenanceReindexTask".data, "Microsoft.DbMaintenanceReindexTask".data),
  (Pat.contains "DbMaintenanceShrinkTask".data, "Microsoft.DbMaintenanceShrinkTask".data),
  (Pat.contains "DbMaintenanceTSQLExecuteTask".data, "Microsoft.DbMaintenanceTSQLExecuteTask".data),
  (Pat.contains "DbMaintenanceUpdateStatisticsTask".data, "Microsoft.DbMaintenanceUpdateStatisticsTask".data)]

/-- `COMPONENT_CLASSID_MAPPINGS`: string-form componentClassID patterns. -/
def COMPONENT_CLASSID_MAPPINGS : List (Pat × List Char) := [
  (Pat.exact "DTS.ManagedComponentWrapper.3".data, "Microsoft.ManagedComponentWrapper".data),
  (Pat.exact "DTSAdapter.ExcelDestination.3".data, "Microsoft.ExcelDestination".data),
  (Pat.exact "DTSAdapter.OLEDBDestination.3".data, "Microsoft.OLEDBDestination".data),
  (Pat.exact "DTSAdapter.ExcelSource.3".data, "Microsoft.ExcelSource".data),
  (Pat.exact "DTSAdapter.FlatFileSource.3".data, "Microsoft.FlatFileSource".data),
  (Pat.exact "DTSAdapter.OLEDBSource.3".data, "Microsoft.OLEDBSource".data),
  (Pat.exact "DTSTransform.Aggregate.3".data, "Microsoft.Aggregate".data),
  (Pat.exact "DTSTransform.ConditionalSplit.3".data, "Microsoft.ConditionalSplit".data),
  (Pat.exact "DTSTransform.DataConvert.3".data, "Microsoft.DataConvert".data),
  (Pat.exact "DTSTransform.DerivedColumn.3".data, "Microsoft.DerivedColumn".data),
  (Pat.exact "DTSTransform.Lookup.3".data, "Microsoft.Lookup".data),
  (Pat.exact "DTSTransform.Merge.3".data, "Microsoft.Merge".data),
  (Pat.exact "DTSTransform.MergeJoin.3".data, "Microsoft.MergeJoin".data),
  (Pat.exact "DTSTransform.Multicast.3".data, "Microsoft.Multicast".data),
  (Pat.exact "DTSTransform.OLEDBCommand.3".data, "Microsoft.OLEDBCommand".data),
  (Pat.exact "DTSTransform.SCD.3".data, "Microsoft.SlowlyChangingDimension".data),
  (Pat.exact "DTSTransform.Sort.3".data, "Microsoft.Sort".data),
  (Pat.exact "DTSTransform.UnionAll.3".data, "Microsoft.UnionAll".data)]

/-- `GUID_COMPONENT_CLASSID_MAPPINGS`: GUID-form componentClassID patterns
(applied with `re.IGNORECASE`). -/
def GUID_COMPONENT_CLASSID_MAPPINGS : List (Pat × List Char) := [
  (Pat.exact "{5B201335-B360-485C-BB93-75C34E09B3D3}".data, "Microsoft.Aggregate".data),
  (Pat.exact "{7F88F654-4E20-4D14-84F4-AF9C925D3087}".data, "Microsoft.ConditionalSplit".data),
  (Pat.exact ("\x7b62B1106C-7DB8-4" ++ "EC8-ADD6-4C664DFFC54A\x7d").data, "Microsoft.DataConvert".data),
  (Pat.exact "{49928E82-9C4E-49F0-AABE-3812B82707EC}".data, "Microsoft.DerivedColumn".data),
  (Pat.exact "{671046B0-AA63-4C9F-90E4-C06E0B710CE3}".data, "Microsoft.Lookup".data),
  (Pat.exact ("\x7b36E0" ++ "E750-2510-4776-AA6E-17" ++ "EAE84FD63E\x7d").data, "Microsoft.Merge".data),
  (Pat.exact "{14D43A4F-D7BD-489D-829E-6DE35750CFE4}".data, "Microsoft.MergeJoin".data),
  (Pat.exact ("\x7bEC139FBC-694E-490B-8" ++ "EA7-35690FB0F445\x7d").data, "Microsoft.Multicast".data),
  (Pat.exact "{93FFEC66-CBC8-4C7F-9C6A-CB1C17A7567D}".data, "Microsoft.OLEDBCommand".data),
  (Pat.exact "{25BBB0C5-369B-4303-B3DF-D0DC741DEE58}".data, "Microsoft.SlowlyChangingDimension".data),
  (Pat.exact "{5B1A3FF5-D366-4D75-AD1F-F19A36FCBEDB}".data, "Microsoft.Sort".data),
  (Pat.exact "{B594E9A8-4351-4939-891C-CFE1AB93E925}".data, "Microsoft.UnionAll".data),
  (Pat.exact "{874F7595-FB5F-40FF-96AF-FBFF8250E3EF}".data, "Microsoft.ManagedComponentWrapper".data),
  (Pat.exact "{4ADA7EAA-136C-4215-8098-D7A7C27FC0D1}".data, "Microsoft.OLEDBDestination".data),
  (Pat.exact "{8DA75FED-1B7C-407D-B2AD-2B24209CCCA4}".data, "Microsoft.FlatFileDestination".data),
  (Pat.exact "{C457FD7E-CE98-4C4B-AEFE-F3AE0044F181}".data, "Microsoft.RecordsetDestination".data),
  (Pat.exact "{165A526D-D5DE-47FF-96A6-F8274C19826B}".data, "Microsoft.OLEDBSource".data),
  (Pat.exact "{8C084929-27D1-479F-9641-ABB7CDADF1AC}".data, "Microsoft.ExcelSource".data),
  (Pat.exact "{D23FD76B-F51D-420F-BBCB-19CBF6AC1AB4}".data, "Microsoft.FlatFileSource".data),
  (Pat.exact "{5918251B-2970-45A4-AB5F-01C3C588FE5A}".data, "Microsoft.OLEDBSource".data),
  (Pat.exact "{98F16A65-E02F-4B0F-87D4-C217EA074619}".data, "Microsoft.ExcelSource".data),
  (Pat.exact "{BD06A22E-BC69-4AF7-A69B-C44C2EF684BB}".data, "Microsoft.FlatFileSource".data)]

/-- The source decides case-insensitivity of an executable-type rule by
`pattern.startswith('\\{')`: exactly the brace-delimited GUID patterns. -/
def isGuidPat : Pat → Bool
  | .exact ('{' :: _) => true
  | _ => false

/-- The two attribute names targeted by the executable-type category, in the
order the source iterates them. -/
def EXEC_ATTRS : List (List Char) := ["DTS:CreationName".data, "DTS:ExecutableType".data]

/-- The componentClassID attribute name. -/
def CCID_ATTR : List Char := "componentClassID".data

/-! ### The two substitution passes (`SSISPackageUpgrader` methods) -/

/-- One `re.sub` application threaded through a `(content, count)` accumulator. -/
def subStep (attr : List Char) (ci : Bool) (p : Pat) (repl : List Char)
    (acc : List Char × Nat) : List Char × Nat :=
  let r := re_sub attr ci p repl acc.1
  (r.1, acc.2 + r.2)

/-- `simplify_executable_types`: for every rule of `EXECUTABLE_TYPE_MAPPINGS`
and each of the two attribute names, one substitution; GUID patterns are
applied case-insensitively.  Returns the updated content and the number of
replacements performed. -/
def simplify_executable_types (content : List Char) : List Char × Nat :=
  EXECUTABLE_TYPE_MAPPINGS.foldl
    (fun acc pr => EXEC_ATTRS.foldl (fun a attr => subStep attr (isGuidPat pr.1) pr.1 pr.2 a) acc)
    (content, 0)

/-- `upgrade_component_classids`: string-form rules first (case-sensitive),
then GUID-form rules (case-insensitive), all on `componentClassID`. -/
def upgrade_component_classids (content : List Char) : List Char × Nat :=
  GUID_COMPONENT_CLASSID_MAPPINGS.foldl
    (fun acc pr => subStep CCID_ATTR true pr.1 pr.2 acc)
    (COMPONENT_CLASSID_MAPPINGS.foldl
      (fun acc pr => subStep CCID_ATTR false pr.1 pr.2 acc)
      (content, 0))

/-- The full content transformation run by `upgrade_package` when neither
category is disabled: executable-type pass, then component-classid pass. -/
def fullUpgrade (content : List Char) : List Char :=
  (upgrade_component_classids (simplify_executable_types content).1).1

/-! ### File processor, path walker and CLI models

File-system effects are modelled by pure state passing: a `DtsxFile` carries
its content plus two oracle bits (`readable`: reading the file succeeds;
`backup_ok`: `shutil.copy2` to the `.bak` sibling succeeds).  `Stats` mirrors
the `self.stats` dictionary field for field. -/

/-- The `self.stats` accumulator of `SSISPackageUpgrader`. -/
structure Stats where
  files_processed : Nat
  files_modified : Nat
  executable_replacements : Nat
  classid_replacements : Nat
  errors : Nat
deriving DecidableEq

/-- Initial statistics (constructor of `SSISPackageUpgrader`). -/
def Stats.init : Stats := ⟨0, 0, 0, 0, 0⟩

/-- Category-restriction configuration of `SSISPackageUpgrader`. -/
structure Upgrader where
  executable_only : Bool
  classid_only : Bool

/-- A file on disk: its text content and oracles for whether reading it and
backing it up succeed. -/
structure DtsxFile where
  content : List Char
  readable : Bool
  backup_ok : Bool
deriving DecidableEq

/-- Result of `upgrade_package` on one file: updated statistics, the content
on disk afterwards, whether a write was performed, and the boolean the method
returns (`False` exactly on a caught per-file exception). -/
structure UpgradeOutcome where
  stats : Stats
  content : List Char
  wrote : Bool
  ok : Bool
deriving DecidableEq

/-- `upgrade_package`: read the file, run the enabled passes in the fixed
order (executable-type then component-classid), and write back only when the
total count is nonzero, dry-run is off and the text actually changed.
A read failure is caught, counted as an error and does not propagate. -/
def upgrade_package (u : Upgrader) (st : Stats) (f : DtsxFile) (dry_run : Bool) :
    UpgradeOutcome :=
  let st := { st with files_processed := st.files_processed + 1 }
  if f.readable then
    let content := f.content
    let e := if u.classid_only then (content, 0) else simplify_executable_types content
    let st := if u.classid_only then st else
      { st with executable_replacements := st.executable_replacements + e.2 }
    let k := if u.executable_only then (e.1, 0) else upgrade_component_classids e.1
    let st := if u.executable_only then st else
      { st with classid_replacements := st.classid_replacements + k.2 }
    let total := e.2 + k.2
    if total = 0 then ⟨st, content, false, true⟩
    else if dry_run then ⟨st, content, false, true⟩
    else if k.1 ≠ content then
      ⟨{ st with files_modified := st.files_modified + 1 }, k.1, true, true⟩
    else ⟨st, content, false, true⟩
  else ⟨{ st with errors := st.errors + 1 }, f.content, false, false⟩

/-- `create_backup` returns whether the `.bak` copy succeeded. -/
def create_backup (f : DtsxFile) : Bool := f.backup_ok

/-- The target of `process_path`: a single file, a directory (whose list is
the result of the `*.dtsx` glob, recursive or not), or a missing path. -/
inductive PathTarget where
  | file (name : List Char) (f : DtsxFile)
  | dir (files : List (List Char × DtsxFile))
  | missing

/-- Result of a `process_path` run: final statistics, the final state of every
file seen (in order), and the names for which a backup copy was created. -/
structure ProcResult where
  stats : Stats
  files : List (List Char × DtsxFile)
  backups : List (List Char)
deriving DecidableEq

/-- `Path.suffix.lower() == '.dtsx'`: the extension after the last dot,
lowered (ASCII). -/
def hasDtsxSuffixB (name : List Char) : Bool :=
  let ext := (name.reverse.takeWhile (fun c => c ≠ '.')).reverse
  (ext.length + 1 ≤ name.length) && ((ext.map Char.toLower) == "dtsx".data)

/-- The per-file body of `process_path`: optional backup (skipping the file
when the backup fails), then `upgrade_package`. -/
def process_one (u : Upgrader) (backup dry_run : Bool) (acc : ProcResult)
    (nf : List Char × DtsxFile) : ProcResult :=
  if backup && !dry_run then
    if create_backup nf.2 then
      let o := upgrade_package u acc.stats nf.2 dry_run
      ⟨o.stats, acc.files ++ [(nf.1, { nf.2 with content := o.content })],
        acc.backups ++ [nf.1]⟩
    else
      ⟨acc.stats, acc.files ++ [nf], acc.backups⟩
  else
    let o := upgrade_package u acc.stats nf.2 dry_run
    ⟨o.stats, acc.files ++ [(nf.1, { nf.2 with content := o.content })], acc.backups⟩

/-- `process_path`: a single file is processed when it has the `.dtsx`
extension (otherwise skipped with a notice); a directory's glob results are
processed in order; a missing path only prints an error here (the fatal exit
happens in `main`, which checks existence first). -/
def process_path (u : Upgrader) (pt : PathTarget) (backup dry_run : Bool)
    (st : Stats) : ProcResult :=
  match pt with
  | .file name f =>
    if hasDtsxSuffixB name then
      process_one u backup dry_run ⟨st, [], []⟩ (name, f)
    else ⟨st, [(name, f)], []⟩
  | .dir files => files.foldl (process_one u backup dry_run) ⟨st, [], []⟩
  | .missing => ⟨st, [], []⟩

/-- `main`: reject the conflicting restriction flags before touching any path,
then reject a missing path, then run `process_path` and exit zero.  Returns
the process exit code together with the run's results. -/
def main_model (executable_only classid_only backup dry_run : Bool)
    (pt : PathTarget) : Nat × ProcResult :=
  if executable_only && classid_only then (1, ⟨Stats.init, [], []⟩)
  else
    match pt with
    | .missing => (1, ⟨Stats.init, [], []⟩)
    | _ => (0, process_path ⟨executable_only, classid_only⟩ pt backup dry_run Stats.init)

/-! ### Basic properties of the matching primitives -/

/-- List version of `eqC`: the two lists have the same length and agree
characterwise (case-insensitively when `ci`). -/
def eqCL (ci : Bool) : List Char → List Char → Bool
  | [], [] => true
  | a :: s, b :: v => eqC ci a b && eqCL ci s v
  | _, _ => false

/-- Specification-side predicate: does the ENTIRE quoted value `v` match the
rule pattern?  (`exact`: the whole value is the literal; `optNumSuffix`: the
literal plus an optional `.digits` suffix; `contains`: a quote-free value with
the literal somewhere inside.) -/
def valueMatchesB (ci : Bool) : Pat → List Char → Bool
  | .exact s, v => eqCL ci s v
  | .optNumSuffix s, v =>
    match matchChars ci s v with
    | some [] => true
    | some ('.' :: ds) => !ds.isEmpty && ds.all Char.isDigit
    | _ => false
  | .contains s, v => v.all (fun c => c ≠ '"') && hasSubB ci s v

theorem eqC_refl (ci : Bool) (c : Char) : eqC ci c c = true := by
  cases ci <;> simp [eqC]

theorem eqCL_append {ci : Bool} :
    ∀ {s1 v1 s2 v2 : List Char}, eqCL ci s1 v1 = true → eqCL ci s2 v2 = true →
      eqCL ci (s1 ++ s2) (v1 ++ v2) = true := by
  intro s1
  induction s1 with
  | nil => intro v1 s2 v2 h1 h2; cases v1 <;> simp_all [eqCL]
  | cons a s ih =>
    intro v1 s2 v2 h1 h2
    cases v1 with
    | nil => simp [eqCL] at h1
    | cons b v =>
      simp only [eqCL, Bool.and_eq_true] at h1
      simpa [eqCL, h1.1] using ih h1.2 h2

theorem matchChars_extend {ci : Bool} :
    ∀ {s input t w : List Char}, matchChars ci s input = some t →
      matchChars ci s (input ++ w) = some (t ++ w) := by
  intro s
  induction s with
  | nil => intro input t w h; simp [matchChars] at h ⊢; simp [h]
  | cons a s ih =>
    intro input t w h
    cases input with
    | nil => simp [matchChars] at h
    | cons b input =>
      simp only [matchChars] at h ⊢
      by_cases hc : eqC ci a b = true
      · rw [hc] at h ⊢; simp only [if_true, List.cons_append]
        exact ih h
      · simp [hc] at h

theorem matchChars_complete {ci : Bool} :
    ∀ {s v : List Char} (rest : List Char), eqCL ci s v = true →
      matchChars ci s (v ++ rest) = some rest := by
  intro s
  induction s with
  | nil => intro v rest h; cases v <;> simp_all [eqCL, matchChars]
  | cons a s ih =>
    intro v rest h
    cases v with
    | nil => simp [eqCL] at h
    | cons b v =>
      simp only [eqCL, Bool.and_eq_true] at h
      simpa [matchChars, h.1] using ih rest h.2

theorem matchChars_some_decomp {ci : Bool} :
    ∀ {s input r : List Char}, matchChars ci s input = some r →
      ∃ v, input = v ++ r ∧ eqCL ci s v = true := by
  intro s
  induction s with
  | nil =>
    intro input r h
    simp [matchChars] at h
    exact ⟨[], by simp [h, eqCL]⟩
  | cons a s ih =>
    intro input r h
    cases input with
    | nil => simp [matchChars] at h
    | cons b input =>
      simp only [matchChars] at h
      by_cases hc : eqC ci a b = true
      · rw [hc] at h; simp only [if_true] at h
        obtain ⟨v, hv, he⟩ := ih h
        exact ⟨b :: v, by simp [hv], by simp [eqCL, hc, he]⟩
      · simp [hc] at h

theorem all_takeWhile (p : Char → Bool) :
    ∀ l : List Char, (l.takeWhile p).all p = true := by
  intro l
  induction l with
  | nil => simp
  | cons c t ih =>
    by_cases hc : p c = true
    · simpa [List.takeWhile, hc] using ih
    · simp [List.takeWhile, hc]

theorem takeWhile_all_append (p : Char → Bool) :
    ∀ (v : List Char) (b : Char) (rest : List Char), v.all p = true → p b = false →
      (v ++ b :: rest).takeWhile p = v ∧ (v ++ b :: rest).dropWhile p = b :: rest := by
  intro v
  induction v with
  | nil => intro b rest _ hb; simp [List.takeWhile, List.dropWhile, hb]
  | cons c t ih =>
    intro b rest hall hb
    simp only [List.all_cons, Bool.and_eq_true] at hall
    have := ih b rest hall.2 hb
    simp [List.takeWhile, List.dropWhile, hall.1, this.1, this.2]

/-- Completeness of the value matcher: if the entire quoted value matches the
pattern, the matcher consumes exactly the value and its closing quote. -/
theorem matchVal_complete {ci : Bool} {p : Pat} {v : List Char} (rest : List Char)
    (h : valueMatchesB ci p v = true) :
    matchVal ci p (v ++ '"' :: rest) = some rest := by
  cases p with
  | exact s =>
    simp only [valueMatchesB] at h
    simp [matchVal, matchChars_complete _ h]
  | optNumSuffix s =>
    simp only [valueMatchesB] at h
    split at h
    · next hm =>
      have hext := matchChars_extend (w := '"' :: rest) hm
      simp only [List.nil_append] at hext
      simp [matchVal, hext]
    · next ds hm =>
      obtain ⟨hne, hd⟩ := Bool.and_eq_true_iff.mp h
      have hext := matchChars_extend (w := '"' :: rest) hm
      simp only [List.cons_append] at hext
      have htd := takeWhile_all_append Char.isDigit ds '"' rest hd (by decide)
      simp only [matchVal, hext]
      rw [htd.1, htd.2]
      cases ds with
      | nil => simp at hne
      | cons d ds' => simp
    · simp at h
  | contains s =>
    simp only [valueMatchesB, Bool.and_eq_true] at h
    have htd := takeWhile_all_append (fun c => c ≠ '"') v '"' rest h.1 (by simp)
    simp only [matchVal]
    rw [htd.1, htd.2]
    simp [h.2]

/-- Soundness of the value matcher: a successful match always consumed an
entire quoted value that fully matches the pattern, never a proper substring
of the value. -/
theorem matchVal_some_decomp {ci : Bool} {p : Pat} {input r : List Char}
    (h : matchVal ci p input = some r) :
    ∃ v, input = v ++ '"' :: r ∧ valueMatchesB ci p v = true := by
  cases p with
  | exact s =>
    simp only [matchVal] at h
    split at h
    · next r' hm =>
      simp only [Option.some.injEq] at h
      subst h
      obtain ⟨v, hv, he⟩ := matchChars_some_decomp hm
      exact ⟨v, hv, by simpa [valueMatchesB] using he⟩
    · simp at h
  | optNumSuffix s =>
    simp only [matchVal] at h
    split at h
    · next r' hm =>
      simp only [Option.some.injEq] at h
      subst h
      obtain ⟨v1, hv1, he1⟩ := matchChars_some_decomp hm
      refine ⟨v1, hv1, ?_⟩
      simp only [valueMatchesB]
      rw [show matchChars ci s v1 = some [] from by
        simpa using @matchChars_complete ci _ _ [] he1]
    · next r1 hm =>
      obtain ⟨v1, hv1, he1⟩ := matchChars_some_decomp hm
      by_cases hne : (r1.takeWhile Char.isDigit).isEmpty = true
      · rw [hne] at h; simp at h
      · rw [Bool.not_eq_true] at hne
        rw [hne] at h
        simp only [Bool.false_eq_true, if_false] at h
        split at h
        · next r2 hd =>
          simp only [Option.some.injEq] at h
          subst h
          refine ⟨v1 ++ '.' :: r1.takeWhile Char.isDigit, ?_, ?_⟩
          · rw [hv1]
            have hsplit : r1.takeWhile Char.isDigit ++ '"' :: r2 = r1 := by
              rw [← hd]; exact List.takeWhile_append_dropWhile _ _
            nth_rewrite 1 [← hsplit]
            simp
          · simp only [valueMatchesB]
            rw [show matchChars ci s (v1 ++ '.' :: r1.takeWhile Char.isDigit)
                = some ('.' :: r1.takeWhile Char.isDigit) from
              matchChars_complete ('.' :: r1.takeWhile Char.isDigit) he1]
            simp only [Bool.and_eq_true]
            constructor
            · simpa using hne
            · exact all_takeWhile Char.isDigit r1
        · simp at h
    · simp at h
  | contains s =>
    simp only [matchVal] at h
    split at h
    · next hs =>
      split at h
      · next r2 hd =>
        simp only [Option.some.injEq] at h
        subst h
        refine ⟨input.takeWhile (fun c => c ≠ '"'), ?_, ?_⟩
        · have hsplit : List.takeWhile (fun c => c ≠ '"') input ++
              List.dropWhile (fun c => c ≠ '"') input = input :=
            List.takeWhile_append_dropWhile _ _
          rw [hd] at hsplit
          exact hsplit.symm
        · simp only [valueMatchesB, Bool.and_eq_true]
          exact ⟨all_takeWhile _ input, hs⟩
      · simp at h
    · simp at h

/-- Completeness of the full site matcher, allowing a case variant of the
attribute name when the rule is case-insensitive. -/
theorem tryMatch_complete {ci : Bool} {attr a : List Char} {p : Pat} {v : List Char}
    (rest : List Char) (ha : eqCL ci attr a = true) (hv : valueMatchesB ci p v = true) :
    tryMatch attr ci p (a ++ '=' :: '"' :: (v ++ '"' :: rest)) = some rest := by
  have h2 : eqCL ci ['=', '"'] ['=', '"'] = true := by simp [eqCL, eqC_refl]
  have := @matchChars_complete ci _ _ (v ++ '"' :: rest) (eqCL_append ha h2)
  simp only [tryMatch, List.append_assoc, List.cons_append, List.nil_append] at this ⊢
  rw [this]
  exact matchVal_complete rest hv

/-! ### Claims C1, C2, C9, C10 -/

/-- C1: for rules whose pattern has no wildcard context (the exact and
optional-version-suffix shapes), a successful match always consumed an entire
quoted value that fully matches the rule's pattern — never a proper substring
of the value — and concretely a content `DTS:ExecutableType="SSIS.Pipeline.3"`
is rewritten by `simplify_executable_types` to
`DTS:ExecutableType="Microsoft.Pipeline"` with exactly 1 replacement, while a
value properly containing `SSIS.Pipeline.3` is left alone. -/
theorem C1_full_value_match :
    (∀ (ci : Bool) (s input r : List Char),
        matchVal ci (Pat.exact s) input = some r →
        ∃ v, input = v ++ '"' :: r ∧ valueMatchesB ci (Pat.exact s) v = true)
    ∧ (∀ (ci : Bool) (s input r : List Char),
        matchVal ci (Pat.optNumSuffix s) input = some r →
        ∃ v, input = v ++ '"' :: r ∧ valueMatchesB ci (Pat.optNumSuffix s) v = true)
    ∧ simplify_executable_types "DTS:ExecutableType=\"SSIS.Pipeline.3\"".data
      = ("DTS:ExecutableType=\"Microsoft.Pipeline\"".data, 1)
    ∧ simplify_executable_types "DTS:ExecutableType=\"XSSIS.Pipeline.3.5X\"".data
      = ("DTS:ExecutableType=\"XSSIS.Pipeline.3.5X\"".data, 0) :=
  ⟨fun _ _ _ _ h => matchVal_some_decomp h,
   fun _ _ _ _ h => matchVal_some_decomp h,
   by decide, by decide⟩

/-- Witness for C1 at a concrete input: matching the exact pattern `ab`
against `ab"xy` succeeds and decomposes into the full value `ab`. -/
theorem C1_full_value_match_witness :
    ∃ v, "ab\"xy".data = v ++ '"' :: "xy".data
      ∧ valueMatchesB false (Pat.exact "ab".data) v = true :=
  C1_full_value_match.1 false "ab".data "ab\"xy".data "xy".data (by decide)

/-- C2: GUID-form rules match case-insensitively — every ASCII letter-case
variant of the Aggregate GUID is matched exactly like the canonical form and
replaced by `Microsoft.Aggregate` — while string-form rules match
case-sensitively: `DTSTransform.Sort.3` is replaced only in its declared
case. -/
theorem C2_guid_ci_string_cs :
    (∀ (v rest : List Char),
        eqCL true "{5B201335-B360-485C-BB93-75C34E09B3D3}".data v = true →
        matchVal true (Pat.exact "{5B201335-B360-485C-BB93-75C34E09B3D3}".data)
          (v ++ '"' :: rest) = some rest)
    ∧ upgrade_component_classids
        "componentClassID=\"{5B201335-b360-485c-BB93-75C34E09B3D3}\"".data
      = ("componentClassID=\"Microsoft.Aggregate\"".data, 1)
    ∧ upgrade_component_classids
        "componentClassID=\"{5B201335-B360-485C-BB93-75C34E09B3D3}\"".data
      = ("componentClassID=\"Microsoft.Aggregate\"".data, 1)
    ∧ upgrade_component_classids "componentClassID=\"DTSTransform.Sort.3\"".data
      = ("componentClassID=\"Microsoft.Sort\"".data, 1)
    ∧ upgrade_component_classids "componentClassID=\"dtstransform.sort.3\"".data
      = ("componentClassID=\"dtstransform.sort.3\"".data, 0) :=
  ⟨fun _ rest hv => matchVal_complete rest hv,
   by decide, by decide, by decide, by decide⟩

/-- Witness for C2 at a concrete input: the all-lower-case variant of the
Aggregate GUID is matched by the case-insensitive value matcher. -/
theorem C2_guid_ci_string_cs_witness :
    matchVal true (Pat.exact "{5B201335-B360-485C-BB93-75C34E09B3D3}".data)
      ("{5b201335-b360-485c-bb93-75c34e09b3d3}".data ++ '"' :: []) = some [] :=
  C2_guid_ci_string_cs.1 _ [] (by decide)

/-- C9: for GUID-form rules the IGNORECASE flag extends to the attribute name
itself — an occurrence whose attribute name differs in case (such as
`componentclassid` or `dts:executabletype`) is matched and replaced, with the
canonical attribute spelling emitted — whereas for string-form rules the
attribute name must appear in its exact declared case. -/
theorem C9_attr_name_case :
    (∀ (a v rest : List Char),
        eqCL true CCID_ATTR a = true →
        eqCL true "{5B201335-B360-485C-BB93-75C34E09B3D3}".data v = true →
        tryMatch CCID_ATTR true (Pat.exact "{5B201335-B360-485C-BB93-75C34E09B3D3}".data)
          (a ++ '=' :: '"' :: (v ++ '"' :: rest)) = some rest)
    ∧ upgrade_component_classids
        "componentclassid=\"{5B201335-B360-485C-BB93-75C34E09B3D3}\"".data
      = ("componentClassID=\"Microsoft.Aggregate\"".data, 1)
    ∧ simplify_executable_types
        "dts:executabletype=\"{5918251b-2970-45a4-ab5f-01c3c588fe5a}\"".data
      = ("DTS:ExecutableType=\"Microsoft.Pipeline\"".data, 1)
    ∧ upgrade_component_classids "COMPONENTCLASSID=\"DTSTransform.Sort.3\"".data
      = ("COMPONENTCLASSID=\"DTSTransform.Sort.3\"".data, 0)
    ∧ simplify_executable_types "dts:executabletype=\"SSIS.Pipeline.3\"".data
      = ("dts:executabletype=\"SSIS.Pipeline.3\"".data, 0) :=
  ⟨fun _ _ rest ha hv => tryMatch_complete rest ha hv,
   by decide, by decide, by decide, by decide⟩

/-- Witness for C9 at a concrete input: the all-lower-case attribute name
together with a lower-case GUID value is matched by the site matcher. -/
theorem C9_attr_name_case_witness :
    tryMatch CCID_ATTR true (Pat.exact "{5B201335-B360-485C-BB93-75C34E09B3D3}".data)
      ("componentclassid".data ++ '=' :: '"' ::
        ("{5b201335-b360-485c-bb93-75c34e09b3d3}".data ++ '"' :: [])) = some [] :=
  C9_attr_name_case.1 _ _ [] (by decide) (by decide)

/-- C10: the wildcard rule `[^"]*DbMaintenanceReindexTask[^"]*` matches the
already-modern value `Microsoft.DbMaintenanceReindexTask` and replaces it by
itself: the engine reports 1 replacement with text identical to the input,
and `upgrade_package` then performs no write and does not count the file as
modified. -/
theorem C10_self_replacement :
    simplify_executable_types
      "DTS:ExecutableType=\"Microsoft.DbMaintenanceReindexTask\"".data
      = ("DTS:ExecutableType=\"Microsoft.DbMaintenanceReindexTask\"".data, 1)
    ∧ upgrade_package ⟨false, false⟩ Stats.init
        ⟨"DTS:ExecutableType=\"Microsoft.DbMaintenanceReindexTask\"".data, true, true⟩ false
      = ⟨⟨1, 0, 1, 0, 0⟩,
         "DTS:ExecutableType=\"Microsoft.DbMaintenanceReindexTask\"".data, false, true⟩ :=
  ⟨by decide, by decide⟩

/-! ### A zero replacement count means the text is unchanged -/

theorem scanCharF_count_zero {attr : List Char} {ci : Bool} {p : Pat} {repl : List Char} :
    ∀ (fuel : Nat) (l : List Char), (scanCharF attr ci p repl fuel l).2 = 0 →
      (scanCharF attr ci p repl fuel l).1 = l := by
  intro fuel
  induction fuel with
  | zero => intro l _; rfl
  | succ n ih =>
    intro l h
    cases l with
    | nil => rfl
    | cons c cs =>
      simp only [scanCharF] at h ⊢
      cases hm : tryMatch attr ci p (c :: cs) with
      | some rest =>
        rw [hm] at h
        exact absurd h (Nat.succ_ne_zero _)
      | none =>
        rw [hm] at h
        show c :: (scanCharF attr ci p repl n cs).1 = c :: cs
        rw [ih cs h]

theorem re_sub_count_zero {attr : List Char} {ci : Bool} {p : Pat} {repl c : List Char}
    (h : (re_sub attr ci p repl c).2 = 0) : (re_sub attr ci p repl c).1 = c :=
  scanCharF_count_zero _ _ h

theorem subStep_count_le (attr : List Char) (ci : Bool) (p : Pat) (repl : List Char)
    (acc : List Char × Nat) : acc.2 ≤ (subStep attr ci p repl acc).2 :=
  Nat.le_add_right _ _

theorem subStep_count_eq {attr : List Char} {ci : Bool} {p : Pat} {repl : List Char}
    {acc : List Char × Nat} (h : (subStep attr ci p repl acc).2 = acc.2) :
    (subStep attr ci p repl acc).1 = acc.1 := by
  simp only [subStep] at h ⊢
  exact re_sub_count_zero (by omega)

theorem foldl_sub_mono {β : Type} {step : List Char × Nat → β → List Char × Nat}
    (hle : ∀ acc b, acc.2 ≤ (step acc b).2) :
    ∀ (l : List β) (acc : List Char × Nat), acc.2 ≤ (l.foldl step acc).2 := by
  intro l
  induction l with
  | nil => intro acc; exact Nat.le_refl _
  | cons b t ih => intro acc; exact Nat.le_trans (hle acc b) (ih (step acc b))

theorem foldl_sub_zero {β : Type} {step : List Char × Nat → β → List Char × Nat}
    (hle : ∀ acc b, acc.2 ≤ (step acc b).2)
    (heq : ∀ acc b, (step acc b).2 = acc.2 → (step acc b).1 = acc.1) :
    ∀ (l : List β) (acc : List Char × Nat),
      (l.foldl step acc).2 = acc.2 → (l.foldl step acc).1 = acc.1 := by
  intro l
  induction l with
  | nil => intro acc _; rfl
  | cons b t ih =>
    intro acc h
    simp only [List.foldl_cons] at h ⊢
    have h1 : (step acc b).2 = acc.2 := by
      have := foldl_sub_mono hle t (step acc b)
      have := hle acc b
      omega
    have h2 : step acc b = acc := by
      have := heq acc b h1
      cases hsb : step acc b
      simp_all
    rw [h2] at h ⊢
    exact ih acc h

theorem simplify_count_zero {c : List Char}
    (h : (simplify_executable_types c).2 = 0) : (simplify_executable_types c).1 = c := by
  unfold simplify_executable_types at h ⊢
  refine foldl_sub_zero ?_ ?_ _ _ h
  · intro acc b
    exact foldl_sub_mono (fun a2 attr => subStep_count_le attr (isGuidPat b.1) b.1 b.2 a2) _ _
  · intro acc b
    exact foldl_sub_zero (fun a2 attr => subStep_count_le attr (isGuidPat b.1) b.1 b.2 a2)
      (fun a2 attr => subStep_count_eq) _ _

theorem foldl_chain_zero {β γ : Type} {s1 : List Char × Nat → β → List Char × Nat}
    {s2 : List Char × Nat → γ → List Char × Nat}
    (hle1 : ∀ acc b, acc.2 ≤ (s1 acc b).2)
    (heq1 : ∀ acc b, (s1 acc b).2 = acc.2 → (s1 acc b).1 = acc.1)
    (hle2 : ∀ acc b, acc.2 ≤ (s2 acc b).2)
    (heq2 : ∀ acc b, (s2 acc b).2 = acc.2 → (s2 acc b).1 = acc.1)
    (l1 : List β) (l2 : List γ) (c : List Char)
    (h : (l2.foldl s2 (l1.foldl s1 (c, 0))).2 = 0) :
    (l2.foldl s2 (l1.foldl s1 (c, 0))).1 = c := by
  have hmono2 := foldl_sub_mono hle2 l2 (l1.foldl s1 (c, 0))
  have hm2 : (l1.foldl s1 (c, 0)).2 = 0 := by omega
  have hm1 : (l1.foldl s1 (c, 0)).1 = c := foldl_sub_zero hle1 heq1 l1 (c, 0) hm2
  have hmid : l1.foldl s1 (c, 0) = (c, 0) := by
    cases hm : l1.foldl s1 (c, 0); simp_all
  rw [hmid] at h ⊢
  exact foldl_sub_zero hle2 heq2 l2 (c, 0) h

theorem classids_count_zero {c : List Char}
    (h : (upgrade_component_classids c).2 = 0) : (upgrade_component_classids c).1 = c := by
  unfold upgrade_component_classids at h ⊢
  exact @foldl_chain_zero (Pat × List Char) (Pat × List Char)
    (fun acc pr => subStep CCID_ATTR false pr.1 pr.2 acc)
    (fun acc pr => subStep CCID_ATTR true pr.1 pr.2 acc)
    (fun a2 pr => subStep_count_le CCID_ATTR false pr.1 pr.2 a2)
    (fun a2 pr => subStep_count_eq)
    (fun a2 pr => subStep_count_le CCID_ATTR true pr.1 pr.2 a2)
    (fun a2 pr => subStep_count_eq) _ _ _ h

/-! ### Claim C3

For the remaining claims the two substitution passes are only ever handled
through the lemmas above, so they are made irreducible here: this keeps
definitional unfolding from evaluating the concrete rule tables against
symbolic content.  (Reducibility is restored further below for the claims that
evaluate the engine on concrete inputs.) -/

section EngineOpaque

attribute [local irreducible] simplify_executable_types upgrade_component_classids

/-- C3: when no rule pattern matches the content (both passes report zero
replacements), `upgrade_package` leaves the file content byte-for-byte
identical to the input and performs no write; and in general a write is
performed only when the post-substitution text differs from the original. -/
theorem C3_no_match_no_write (u : Upgrader) (st : Stats) (f : DtsxFile) (dry : Bool) :
    ((simplify_executable_types f.content).2 = 0 →
      (upgrade_component_classids f.content).2 = 0 →
      (upgrade_package u st f dry).content = f.content
        ∧ (upgrade_package u st f dry).wrote = false)
    ∧ ((upgrade_package u st f dry).wrote = true →
      (upgrade_package u st f dry).content ≠ f.content) := by
  constructor
  · intro h1 h2
    have e1 : simplify_executable_types f.content = (f.content, 0) := by
      have := simplify_count_zero h1
      cases hq : simplify_executable_types f.content; simp_all
    have e2 : upgrade_component_classids f.content = (f.content, 0) := by
      have := classids_count_zero h2
      cases hq : upgrade_component_classids f.content; simp_all
    obtain ⟨eo, co⟩ := u
    cases eo <;> cases co <;> cases hr : f.readable <;>
      simp [upgrade_package, e1, e2, hr]
  · intro hw
    obtain ⟨eo, co⟩ := u
    cases hr : f.readable with
    | false => simp [upgrade_package, hr] at hw
    | true =>
      cases eo <;> cases co <;>
        simp only [upgrade_package, hr, Bool.true_eq_false, Bool.false_eq_true,
          if_false, if_true, ite_true, ite_false] at hw ⊢ <;>
        split_ifs at hw ⊢ with g1 g2 g3 <;>
        first
          | exact g3
          | simp_all

/-! ### Claim C5 -/

theorem upgrade_package_dry (u : Upgrader) (st : Stats) (f : DtsxFile) :
    (upgrade_package u st f true).content = f.content
      ∧ (upgrade_package u st f true).wrote = false := by
  unfold upgrade_package
  cases hr : f.readable <;> simp [hr] <;> (try split_ifs) <;> simp

theorem process_one_dry (u : Upgrader) (backup : Bool) (acc : ProcResult)
    (nf : List Char × DtsxFile) :
    process_one u backup true acc nf = ⟨(upgrade_package u acc.stats nf.2 true).stats,
      acc.files ++ [nf], acc.backups⟩ := by
  have hc := (upgrade_package_dry u acc.stats nf.2).1
  simp only [process_one, Bool.not_true, Bool.and_false, Bool.false_eq_true, if_false]
  rw [hc]

/-- C5: dry-run never mutates any file and never creates a backup: under
`dry_run` the per-file upgrade performs no write, and `process_path` leaves
every enumerated file exactly as it was and records no backups, even when
backup mode is also requested. -/
theorem C5_dry_run_no_write_no_backup (u : Upgrader) (st : Stats) (pt : PathTarget)
    (backup : Bool) :
    (∀ f, (upgrade_package u st f true).wrote = false)
    ∧ (process_path u pt backup true st).backups = []
    ∧ (process_path u pt backup true st).files =
        (match pt with
         | .file n f => [(n, f)]
         | .dir files => files
         | .missing => []) := by
  refine ⟨fun f => (upgrade_package_dry u st f).2, ?_⟩
  have key : ∀ (files : List (List Char × DtsxFile)) (acc : ProcResult),
      (files.foldl (process_one u backup true) acc).backups = acc.backups
      ∧ (files.foldl (process_one u backup true) acc).files = acc.files ++ files := by
    intro files
    induction files with
    | nil => intro acc; simp
    | cons nf t ih =>
      intro acc
      rw [List.foldl_cons, process_one_dry]
      have := ih ⟨(upgrade_package u acc.stats nf.2 true).stats, acc.files ++ [nf], acc.backups⟩
      refine ⟨this.1, ?_⟩
      rw [this.2]
      simp
  cases pt with
  | file n f =>
    by_cases hs : hasDtsxSuffixB n = true
    · simp only [process_path, if_pos hs]
      rw [process_one_dry]
      simp
    · simp only [process_path, if_neg hs]
      simp
  | dir files =>
    obtain ⟨k1, k2⟩ := key files ⟨st, [], []⟩
    simp only [process_path]
    exact ⟨k1, by rw [k2]; simp⟩
  | missing => exact ⟨rfl, rfl⟩

/-! ### Claims C6 and C7 -/

/-- Boolean test for the missing-path target. -/
def PathTarget.isMissing : PathTarget → Bool
  | .missing => true
  | _ => false

theorem upgrade_package_stats (u : Upgrader) (st : Stats) (f : DtsxFile) (d : Bool) :
    (upgrade_package u st f d).stats.files_processed = st.files_processed + 1
    ∧ (upgrade_package u st f d).stats.errors = st.errors + (if f.readable then 0 else 1) := by
  obtain ⟨eo, co⟩ := u
  cases hr : f.readable <;> cases eo <;> cases co <;>
    simp [upgrade_package, hr] <;> (try split_ifs) <;> simp

theorem process_one_nobackup (u : Upgrader) (d : Bool) (acc : ProcResult)
    (nf : List Char × DtsxFile) :
    process_one u false d acc nf
      = ⟨(upgrade_package u acc.stats nf.2 d).stats,
         acc.files ++ [(nf.1,
           { nf.2 with content := (upgrade_package u acc.stats nf.2 d).content })],
         acc.backups⟩ := by
  simp [process_one]

theorem process_dir_stats (u : Upgrader) (d : Bool) :
    ∀ (files : List (List Char × DtsxFile)) (acc : ProcResult),
      (files.foldl (process_one u false d) acc).stats.files_processed
        = acc.stats.files_processed + files.length
      ∧ (files.foldl (process_one u false d) acc).stats.errors
        = acc.stats.errors + (files.filter (fun nf => !nf.2.readable)).length := by
  intro files
  induction files with
  | nil => intro acc; simp
  | cons nf t ih =>
    intro acc
    rw [List.foldl_cons, process_one_nobackup]
    obtain ⟨u1, u2⟩ := upgrade_package_stats u acc.stats nf.2 d
    obtain ⟨i1, i2⟩ := ih ⟨(upgrade_package u acc.stats nf.2 d).stats,
      acc.files ++ [(nf.1,
        { nf.2 with content := (upgrade_package u acc.stats nf.2 d).content })],
      acc.backups⟩
    rw [i1, i2]
    simp only at u1 u2 ⊢
    rw [u1, u2]
    cases hr : nf.2.readable <;> simp [hr, List.filter_cons] <;> omega

/-- C6: the process exits non-zero exactly when the target path is missing or
both category-restriction flags are supplied; the flag conflict is rejected
before any file is accessed (empty results); and a per-file read failure is
recorded in the error count without halting traversal of the remaining files:
every file of a directory is still visited and the exit code stays zero. -/
theorem C6_exit_codes_and_errors (eo co b d : Bool) (pt : PathTarget) :
    ((main_model eo co b d pt).1 ≠ 0 ↔ (eo && co) = true ∨ pt.isMissing = true)
    ∧ ((eo && co) = true → main_model eo co b d pt = (1, ⟨Stats.init, [], []⟩))
    ∧ (∀ files, (eo && co) = false →
        (main_model eo co b d (.dir files)).1 = 0
        ∧ (process_path ⟨eo, co⟩ (.dir files) false d Stats.init).stats.errors
            = (files.filter (fun nf => !nf.2.readable)).length
        ∧ (process_path ⟨eo, co⟩ (.dir files) false d Stats.init).stats.files_processed
            = files.length) := by
  refine ⟨?_, ?_, ?_⟩
  · cases hc : (eo && co) <;> cases pt <;>
      simp [main_model, hc, PathTarget.isMissing]
  · intro hc
    cases pt <;> simp [main_model, hc]
  · intro files hc
    obtain ⟨s1, s2⟩ := process_dir_stats ⟨eo, co⟩ d files ⟨Stats.init, [], []⟩
    refine ⟨by simp [main_model, hc], ?_, ?_⟩
    · simp only [process_path]
      rw [s2]
      simp [Stats.init]
    · simp only [process_path]
      rw [s1]
      simp [Stats.init]

theorem upgrade_package_content_st (u : Upgrader) (st st2 : Stats) (f : DtsxFile) (d : Bool) :
    (upgrade_package u st f d).content = (upgrade_package u st2 f d).content := by
  obtain ⟨eo, co⟩ := u
  cases hr : f.readable <;> cases eo <;> cases co <;>
    simp [upgrade_package, hr] <;> (try split_ifs) <;> simp

/-- The state of a file after a successful (non-dry) upgrade. -/
def upgradedFile (u : Upgrader) (d : Bool) (nf : List Char × DtsxFile) :
    List Char × DtsxFile :=
  (nf.1, { nf.2 with content := (upgrade_package u Stats.init nf.2 d).content })

/-- C7: with backup mode on and dry-run off, a file is processed only if its
backup succeeded: over a directory, exactly the files whose backup succeeds
are upgraded (and counted as processed) while the others are left untouched,
traversal continuing with the remaining files; and a single file whose backup
fails is returned unchanged with nothing processed. -/
theorem C7_backup_failure_skips (u : Upgrader) :
    (∀ (files : List (List Char × DtsxFile)) (acc : ProcResult),
      (files.foldl (process_one u true false) acc).files
        = acc.files ++ files.map
            (fun nf => if nf.2.backup_ok then upgradedFile u false nf else nf)
      ∧ (files.foldl (process_one u true false) acc).backups
        = acc.backups ++ (files.filter (fun nf => nf.2.backup_ok)).map Prod.fst
      ∧ (files.foldl (process_one u true false) acc).stats.files_processed
        = acc.stats.files_processed + (files.filter (fun nf => nf.2.backup_ok)).length)
    ∧ (∀ (n : List Char) (f : DtsxFile) (st : Stats), f.backup_ok = false →
        process_path u (.file n f) true false st = ⟨st, [(n, f)], []⟩) := by
  constructor
  · intro files
    induction files with
    | nil => intro acc; simp
    | cons nf t ih =>
      intro acc
      rw [List.foldl_cons]
      cases hb : nf.2.backup_ok with
      | true =>
        have hpo : process_one u true false acc nf
            = ⟨(upgrade_package u acc.stats nf.2 false).stats,
               acc.files ++ [(nf.1,
                 { nf.2 with content := (upgrade_package u acc.stats nf.2 false).content })],
               acc.backups ++ [nf.1]⟩ := by
          simp [process_one, create_backup, hb]
        rw [hpo]
        obtain ⟨i1, i2, i3⟩ := ih ⟨(upgrade_package u acc.stats nf.2 false).stats,
          acc.files ++ [(nf.1,
            { nf.2 with content := (upgrade_package u acc.stats nf.2 false).content })],
          acc.backups ++ [nf.1]⟩
        rw [i1, i2, i3]
        obtain ⟨u1, _⟩ := upgrade_package_stats u acc.stats nf.2 false
        simp only at u1 ⊢
        rw [u1]
        refine ⟨?_, ?_, ?_⟩
        · simp [List.map_cons, hb, upgradedFile,
            upgrade_package_content_st u acc.stats Stats.init nf.2 false]
        · simp [List.filter_cons, hb]
        · simp [List.filter_cons, hb]; omega
      | false =>
        have hpo : process_one u true false acc nf
            = ⟨acc.stats, acc.files ++ [nf], acc.backups⟩ := by
          simp [process_one, create_backup, hb]
        rw [hpo]
        obtain ⟨i1, i2, i3⟩ := ih ⟨acc.stats, acc.files ++ [nf], acc.backups⟩
        rw [i1, i2, i3]
        refine ⟨?_, ?_, ?_⟩
        · simp [List.map_cons, hb]
        · simp [List.filter_cons, hb]
        · simp [List.filter_cons, hb]
  · intro n f st hb
    by_cases hs : hasDtsxSuffixB n = true
    · simp only [process_path, if_pos hs]
      simp [process_one, create_backup, hb]
    · simp only [process_path, if_neg hs]

end EngineOpaque

/-- Witness for C3 at a concrete input: content with no matching rule is
returned unchanged and not written. -/
theorem C3_no_match_no_write_witness :
    (upgrade_package ⟨false, false⟩ Stats.init ⟨"x".data, true, true⟩ false).content = "x".data
    ∧ (upgrade_package ⟨false, false⟩ Stats.init ⟨"x".data, true, true⟩ false).wrote = false :=
  (C3_no_match_no_write ⟨false, false⟩ Stats.init ⟨"x".data, true, true⟩ false).1
    (by decide) (by decide)

/-- Witness for C6 at a concrete input: supplying both restriction flags exits
with code 1 and touches nothing. -/
theorem C6_exit_codes_and_errors_witness :
    main_model true true false false (.dir []) = (1, ⟨Stats.init, [], []⟩) :=
  (C6_exit_codes_and_errors true true false false (.dir [])).2.1 rfl

/-- Witness for C7 at a concrete input: a single file whose backup fails is
skipped and returned unchanged. -/
theorem C7_backup_failure_skips_witness :
    process_path ⟨false, false⟩ (.file "a.dtsx".data ⟨"x".data, true, false⟩) true false
      Stats.init = ⟨Stats.init, [("a.dtsx".data, ⟨"x".data, true, false⟩)], []⟩ :=
  (C7_backup_failure_skips ⟨false, false⟩).2 "a.dtsx".data ⟨"x".data, true, false⟩
    Stats.init rfl

/-! ### Quote-segmented view of content

Every site match `attr="value"` has its value strictly between two
consecutive quote characters, so content splits at `"` into segments that the
scanner transforms segmentwise.  This view drives the idempotence proof. -/

/-- Quote-free text. -/
def qfB (s : List Char) : Bool := s.all (fun c => c ≠ '"')

/-- The literal inside a pattern. -/
def Pat.lit : Pat → List Char
  | .exact s => s
  | .optNumSuffix s => s
  | .contains s => s

/-- Does `t` end with (a case variant of) `s`? -/
def endsWithCI (ci : Bool) (s t : List Char) : Bool :=
  if s.length ≤ t.length then eqCL ci s (t.drop (t.length - s.length)) else false

/-- Replace the trailing case variant of `attr=` by its canonical spelling. -/
def normAttr (attr : List Char) (prev : List Char) : List Char :=
  prev.take (prev.length - (attr.length + 1)) ++ attr ++ ['=']

/-- The scanner on the quote-segmented view: `prev` is the segment before the
current opening quote; a site fires when `prev` ends with `attr=`, the value
segment fully matches and a closing quote follows (at least one more segment);
scanning resumes after the closing quote, so the segment right after a fired
site is never itself in value position. -/
def scanSegs (attr : List Char) (ci : Bool) (p : Pat) (repl : List Char) :
    List Char → List (List Char) → List (List Char) × Nat
  | prev, [] => ([prev], 0)
  | prev, [seg] => ([prev, seg], 0)
  | prev, seg :: s2 :: rest =>
    if endsWithCI ci (attr ++ ['=']) prev && valueMatchesB ci p seg then
      let r := scanSegs attr ci p repl s2 rest
      (normAttr attr prev :: repl :: r.1, r.2 + 1)
    else
      let r := scanSegs attr ci p repl seg (s2 :: rest)
      (prev :: r.1, r.2)

/-- Join segments, inserting a quote between adjacent segments. -/
def joinQ : List (List Char) → List Char
  | [] => []
  | [s] => s
  | s :: s2 :: rest => s ++ '"' :: joinQ (s2 :: rest)

/-- Split content at quote characters. -/
def splitQ : List Char → List (List Char)
  | [] => [[]]
  | c :: cs =>
    if c = '"' then [] :: splitQ cs
    else
      match splitQ cs with
      | [] => [[c]]
      | s :: ss => (c :: s) :: ss

theorem splitQ_ne_nil : ∀ l : List Char, splitQ l ≠ [] := by
  intro l
  cases l with
  | nil => simp [splitQ]
  | cons c cs =>
    simp only [splitQ]
    split
    · simp
    · split <;> simp

theorem joinQ_cons (a : List Char) {l : List (List Char)} (h : l ≠ []) :
    joinQ (a :: l) = a ++ '"' :: joinQ l := by
  cases l with
  | nil => exact absurd rfl h
  | cons b t => rfl

theorem joinQ_splitQ : ∀ l : List Char, joinQ (splitQ l) = l := by
  intro l
  induction l with
  | nil => rfl
  | cons c cs ih =>
    simp only [splitQ]
    by_cases hc : c = '"'
    · rw [if_pos hc, joinQ_cons [] (splitQ_ne_nil cs), ih, hc]
      rfl
    · rw [if_neg hc]
      cases hq : splitQ cs with
      | nil => exact absurd hq (splitQ_ne_nil cs)
      | cons s ss =>
        rw [hq] at ih
        cases ss with
        | nil =>
          simp only [joinQ] at ih ⊢
          rw [ih]
        | cons s2 ss2 =>
          simp only [joinQ] at ih ⊢
          simp [ih]

theorem splitQ_all_qf : ∀ l : List Char, (splitQ l).all qfB = true := by
  intro l
  induction l with
  | nil => simp [splitQ, qfB]
  | cons c cs ih =>
    simp only [splitQ]
    by_cases hc : c = '"'
    · rw [if_pos hc]
      simpa [qfB] using ih
    · rw [if_neg hc]
      cases hq : splitQ cs with
      | nil => exact absurd hq (splitQ_ne_nil cs)
      | cons s ss =>
        rw [hq] at ih
        simp only [List.all_cons, Bool.and_eq_true] at ih ⊢
        exact ⟨by simpa [qfB, hc] using ih.1, ih.2⟩

theorem splitQ_qf_single : ∀ (a : List Char), qfB a = true → splitQ a = [a] := by
  intro a
  induction a with
  | nil => intro _; rfl
  | cons c cs ih =>
    intro h
    simp only [qfB, List.all_cons, Bool.and_eq_true] at h
    have hc : ¬(c = '"') := by simpa using h.1
    simp only [splitQ, if_neg hc]
    rw [ih (by simpa [qfB] using h.2)]

theorem splitQ_qsplit : ∀ (a : List Char) (w : List Char), qfB a = true →
    splitQ (a ++ '"' :: w) = a :: splitQ w := by
  intro a
  induction a with
  | nil => intro w _; simp [splitQ]
  | cons c cs ih =>
    intro w h
    simp only [qfB, List.all_cons, Bool.and_eq_true] at h
    have hc : ¬(c = '"') := by simpa using h.1
    have hstep : (c :: cs) ++ '"' :: w = c :: (cs ++ '"' :: w) := rfl
    rw [hstep]
    simp only [splitQ, if_neg hc]
    rw [ih w (by simpa [qfB] using h.2)]

theorem splitQ_joinQ : ∀ (l : List (List Char)), l ≠ [] → l.all qfB = true →
    splitQ (joinQ l) = l := by
  intro l
  induction l with
  | nil => intro h; exact absurd rfl h
  | cons a t ih =>
    intro _ hq
    simp only [List.all_cons, Bool.and_eq_true] at hq
    cases t with
    | nil => exact splitQ_qf_single a hq.1
    | cons b t2 =>
      rw [joinQ_cons a (by simp), splitQ_qsplit a _ hq.1,
        ih (by simp) hq.2]

theorem scanSegs_ne_nil (attr : List Char) (ci : Bool) (p : Pat) (repl : List Char) :
    ∀ (prev : List Char) (segs : List (List Char)),
      (scanSegs attr ci p repl prev segs).1 ≠ [] := by
  intro prev segs
  induction prev, segs using scanSegs.induct attr ci p repl <;>
    simp_all [scanSegs] <;> split <;> simp

/-! ### Fuel irrelevance and step equations for the character scanner -/

theorem eqCL_length {ci : Bool} : ∀ {s v : List Char}, eqCL ci s v = true →
    s.length = v.length := by
  intro s
  induction s with
  | nil => intro v h; cases v <;> simp_all [eqCL]
  | cons a s ih =>
    intro v h
    cases v with
    | nil => simp [eqCL] at h
    | cons b t =>
      simp only [eqCL, Bool.and_eq_true] at h
      simp [ih h.2]

theorem matchVal_some_lt {ci : Bool} {p : Pat} {i r : List Char}
    (h : matchVal ci p i = some r) : r.length < i.length := by
  obtain ⟨v, hv, _⟩ := matchVal_some_decomp h
  subst hv
  simp only [List.length_append, List.length_cons]
  omega

theorem tryMatch_some_lt {attr : List Char} {ci : Bool} {p : Pat} {i r : List Char}
    (h : tryMatch attr ci p i = some r) : r.length < i.length := by
  unfold tryMatch at h
  cases hm : matchChars ci (attr ++ ['=', '"']) i with
  | none => rw [hm] at h; simp at h
  | some r1 =>
    rw [hm] at h
    obtain ⟨v, hv, he⟩ := matchChars_some_decomp hm
    have h1 := matchVal_some_lt h
    have h2 := eqCL_length he
    subst hv
    simp only [List.length_append] at *
    omega

theorem scanCharF_fuel_any {attr : List Char} {ci : Bool} {p : Pat} {repl : List Char} :
    ∀ (f1 f2 : Nat) (l : List Char), l.length ≤ f1 → l.length ≤ f2 →
      scanCharF attr ci p repl f1 l = scanCharF attr ci p repl f2 l := by
  intro f1
  induction f1 with
  | zero =>
    intro f2 l h1 _
    have : l = [] := by cases l <;> simp_all
    subst this
    cases f2 <;> rfl
  | succ n ih =>
    intro f2 l h1 h2
    cases l with
    | nil => cases f2 <;> rfl
    | cons c cs =>
      cases f2 with
      | zero => simp at h2
      | succ m =>
        simp only [scanCharF]
        cases hm : tryMatch attr ci p (c :: cs) with
        | some rest =>
          have hlt := tryMatch_some_lt hm
          simp only [List.length_cons] at h1 h2 hlt
          simp [ih m rest (by omega) (by omega)]
        | none =>
          simp only [List.length_cons] at h1 h2
          simp [ih m cs (by omega) (by omega)]

theorem re_sub_nil (attr : List Char) (ci : Bool) (p : Pat) (repl : List Char) :
    re_sub attr ci p repl [] = ([], 0) := rfl

theorem re_sub_cons (attr : List Char) (ci : Bool) (p : Pat) (repl : List Char)
    (c : Char) (cs : List Char) :
    re_sub attr ci p repl (c :: cs) =
      match tryMatch attr ci p (c :: cs) with
      | some rest =>
        (attr ++ '=' :: '"' :: (repl ++ '"' :: (re_sub attr ci p repl rest).1),
         (re_sub attr ci p repl rest).2 + 1)
      | none =>
        (c :: (re_sub attr ci p repl cs).1, (re_sub attr ci p repl cs).2) := by
  show scanCharF attr ci p repl (cs.length + 1) (c :: cs) = _
  simp only [scanCharF]
  cases hm : tryMatch attr ci p (c :: cs) with
  | some rest =>
    have hlt := tryMatch_some_lt hm
    simp only [List.length_cons] at hlt
    have he : scanCharF attr ci p repl cs.length rest = re_sub attr ci p repl rest :=
      scanCharF_fuel_any _ _ _ (by omega) (Nat.le_refl _)
    simp [he]
  | none => rfl

/-! ### Case folding is rigid on the quote character -/

theorem toNat_ofNat_letters (n : Nat) (h1 : 97 ≤ n) (h2 : n ≤ 122) :
    (Char.ofNat n).toNat = n := by
  have hval : n.isValidChar := Or.inl (by omega)
  unfold Char.ofNat
  rw [dif_pos hval]
  rfl

theorem toLower_quote (c : Char) (h : c.toLower = '"') : c = '"' := by
  unfold Char.toLower at h
  simp only at h
  by_cases hu : c.toNat ≥ 65 ∧ c.toNat ≤ 90
  · rw [if_pos hu] at h
    exfalso
    have hv := congrArg Char.toNat h
    rw [toNat_ofNat_letters (c.toNat + 32) (by omega) (by omega)] at hv
    have h34 : ('"' : Char).toNat = 34 := by decide
    omega
  · rw [if_neg hu] at h
    exact h

theorem eqC_quote_left {ci : Bool} {c : Char} (h : eqC ci '"' c = true) : c = '"' := by
  cases ci with
  | false =>
    have h2 : '"' = c := by simpa [eqC] using h
    exact h2.symm
  | true =>
    have h2 : '"'.toLower = c.toLower := by simpa [eqC] using h
    exact toLower_quote c (by rw [← h2]; decide)

theorem eqC_quote_right {ci : Bool} {c : Char} (h : eqC ci c '"' = true) : c = '"' := by
  cases ci with
  | false => simpa [eqC] using h
  | true =>
    have h2 : c.toLower = '"'.toLower := by simpa [eqC] using h
    exact toLower_quote c (by rw [h2]; decide)

theorem eqCL_split {ci : Bool} : ∀ {s1 s2 v : List Char},
    eqCL ci (s1 ++ s2) v = true →
    ∃ v1 v2, v = v1 ++ v2 ∧ eqCL ci s1 v1 = true ∧ eqCL ci s2 v2 = true := by
  intro s1
  induction s1 with
  | nil =>
    intro s2 v h
    exact ⟨[], v, by simp, by simp [eqCL], by simpa using h⟩
  | cons a s ih =>
    intro s2 v h
    cases v with
    | nil => simp [eqCL] at h
    | cons b t =>
      simp only [List.cons_append, eqCL, Bool.and_eq_true] at h
      obtain ⟨v1, v2, hv, h1, h2⟩ := ih h.2
      exact ⟨b :: v1, v2, by simp [hv], by simp [eqCL, h.1, h1], h2⟩

theorem eqCL_qf {ci : Bool} : ∀ {s v : List Char}, eqCL ci s v = true →
    qfB s = true → qfB v = true := by
  intro s
  induction s with
  | nil => intro v h _; cases v <;> simp_all [eqCL, qfB]
  | cons a s ih =>
    intro v h hq
    cases v with
    | nil => simp [qfB]
    | cons b t =>
      simp only [eqCL, Bool.and_eq_true] at h
      simp only [qfB, List.all_cons, Bool.and_eq_true] at hq ⊢
      refine ⟨?_, ih h.2 (by simpa [qfB] using hq.2)⟩
      simp only [decide_eq_true_eq] at hq ⊢
      intro hb
      subst hb
      exact hq.1 (eqC_quote_right h.1)

/-! ### Boundary behavior of the site matcher on segmented content -/

theorem qf_quote_inj : ∀ {a b x y : List Char}, qfB a = true → qfB b = true →
    a ++ '"' :: x = b ++ '"' :: y → a = b ∧ x = y := by
  intro a
  induction a with
  | nil =>
    intro b x y _ hb h
    cases b with
    | nil => simpa using h
    | cons c2 b2 =>
      exfalso
      simp only [List.nil_append, List.cons_append, List.cons.injEq] at h
      simp [qfB, ← h.1] at hb
  | cons c a2 ih =>
    intro b x y ha hb h
    cases b with
    | nil =>
      exfalso
      simp only [List.nil_append, List.cons_append, List.cons.injEq] at h
      simp [qfB, h.1] at ha
    | cons c2 b2 =>
      simp only [List.cons_append, List.cons.injEq] at h
      simp only [qfB, List.all_cons, Bool.and_eq_true] at ha hb
      obtain ⟨h1, h2⟩ := ih (by simpa [qfB] using ha.2) (by simpa [qfB] using hb.2) h.2
      exact ⟨by rw [h.1, h1], h2⟩

theorem qf_append {a b : List Char} : qfB (a ++ b) = (qfB a && qfB b) := by
  simp [qfB, List.all_append]

theorem matchVal_none_of_qf {ci : Bool} {p : Pat} {i : List Char}
    (h : qfB i = true) : matchVal ci p i = none := by
  cases hm : matchVal ci p i with
  | none => rfl
  | some r =>
    exfalso
    obtain ⟨v, hv, _⟩ := matchVal_some_decomp hm
    subst hv
    simp [qfB, List.all_append] at h

theorem eqCL_singleton_quote {ci : Bool} {v2 : List Char}
    (h : eqCL ci ['"'] v2 = true) : v2 = ['"'] := by
  cases v2 with
  | nil => simp [eqCL] at h
  | cons c2 t2 =>
    cases t2 with
    | nil =>
      simp only [eqCL, Bool.and_eq_true] at h
      rw [eqC_quote_left h.1]
    | cons c3 t3 => simp [eqCL] at h

theorem tryMatch_none_of_qf {attr : List Char} {ci : Bool} {p : Pat} {i : List Char}
    (h : qfB i = true) : tryMatch attr ci p i = none := by
  unfold tryMatch
  cases hm : matchChars ci (attr ++ ['=', '"']) i with
  | none => rfl
  | some r1 =>
    exfalso
    obtain ⟨v, hv, he⟩ := matchChars_some_decomp hm
    rw [show attr ++ ['=', '"'] = (attr ++ ['=']) ++ ['"'] from by simp] at he
    obtain ⟨v1, v2, hv12, he1, he2⟩ := eqCL_split he
    rw [eqCL_singleton_quote he2] at hv12
    subst hv12
    subst hv
    simp [qfB, List.all_append] at h

theorem re_sub_qf {attr : List Char} {ci : Bool} {p : Pat} {repl : List Char} :
    ∀ {l : List Char}, qfB l = true → re_sub attr ci p repl l = (l, 0) := by
  intro l
  induction l with
  | nil => intro _; rfl
  | cons c cs ih =>
    intro h
    rw [re_sub_cons, tryMatch_none_of_qf h]
    simp only [qfB, List.all_cons, Bool.and_eq_true] at h
    rw [ih (by simpa [qfB] using h.2)]

theorem tryMatch_boundary_eq {attr : List Char} {ci : Bool} {p : Pat} {t : List Char}
    (h : eqCL ci (attr ++ ['=']) t = true) (w : List Char) :
    tryMatch attr ci p (t ++ '"' :: w) = matchVal ci p w := by
  unfold tryMatch
  have he : eqCL ci (attr ++ ['=', '"']) (t ++ ['"']) = true := by
    rw [show attr ++ ['=', '"'] = (attr ++ ['=']) ++ ['"'] from by simp]
    exact eqCL_append h (by simp [eqCL, eqC_refl])
  have hm := @matchChars_complete ci _ _ w he
  rw [show t ++ '"' :: w = (t ++ ['"']) ++ w from by simp, hm]

theorem tryMatch_boundary_ne {attr : List Char} {ci : Bool} {p : Pat} {t : List Char}
    (hq : qfB t = true) (ha : qfB attr = true)
    (h : eqCL ci (attr ++ ['=']) t = false) (w : List Char) :
    tryMatch attr ci p (t ++ '"' :: w) = none := by
  unfold tryMatch
  cases hm : matchChars ci (attr ++ ['=', '"']) (t ++ '"' :: w) with
  | none => rfl
  | some r1 =>
    exfalso
    obtain ⟨v, hv, he⟩ := matchChars_some_decomp hm
    rw [show attr ++ ['=', '"'] = (attr ++ ['=']) ++ ['"'] from by simp] at he
    obtain ⟨v1, v2, hv12, he1, he2⟩ := eqCL_split he
    rw [eqCL_singleton_quote he2] at hv12
    subst hv12
    have hqv1 : qfB v1 = true := eqCL_qf he1 (by rw [qf_append, ha]; decide)
    have heq : v1 ++ '"' :: r1 = t ++ '"' :: w := by simpa using hv.symm
    obtain ⟨h1, _⟩ := qf_quote_inj hqv1 hq heq
    subst h1
    rw [he1] at h
    exact Bool.true_eq_false.mp h

theorem isDigit_ne_quote {c : Char} (h : c.isDigit = true) : (c = '"') → False := by
  intro hc
  subst hc
  exact absurd h (by decide)

theorem valueMatchesB_qf {ci : Bool} {p : Pat} {v : List Char}
    (hp : qfB p.lit = true) (h : valueMatchesB ci p v = true) : qfB v = true := by
  cases p with
  | exact s =>
    simp only [valueMatchesB] at h
    exact eqCL_qf h hp
  | optNumSuffix s =>
    simp only [valueMatchesB] at h
    split at h
    · next hm =>
      obtain ⟨v1, hv1, he1⟩ := matchChars_some_decomp hm
      rw [hv1, List.append_nil]
      exact eqCL_qf he1 hp
    · next ds hm =>
      obtain ⟨v1, hv1, he1⟩ := matchChars_some_decomp hm
      obtain ⟨_, hd⟩ := Bool.and_eq_true_iff.mp h
      have hq1 := eqCL_qf he1 hp
      rw [hv1, qf_append]
      simp only [Bool.and_eq_true]
      refine ⟨hq1, ?_⟩
      simp only [qfB, List.all_cons, Bool.and_eq_true]
      refine ⟨by decide, ?_⟩
      rw [List.all_eq_true] at hd ⊢
      intro c hc
      have := hd c hc
      simp only [decide_eq_true_eq]
      intro hcq
      exact isDigit_ne_quote this hcq
    · simp at h
  | contains s =>
    simp only [valueMatchesB, Bool.and_eq_true] at h
    exact h.1

theorem matchVal_boundary {ci : Bool} {p : Pat} {seg : List Char}
    (hp : qfB p.lit = true) (hs : qfB seg = true) (w : List Char) :
    matchVal ci p (seg ++ '"' :: w) = if valueMatchesB ci p seg then some w else none := by
  by_cases hv : valueMatchesB ci p seg = true
  · rw [if_pos hv]
    exact matchVal_complete w hv
  · rw [if_neg hv]
    cases hm : matchVal ci p (seg ++ '"' :: w) with
    | none => rfl
    | some r =>
      exfalso
      obtain ⟨v, hveq, hvm⟩ := matchVal_some_decomp hm
      have hqv : qfB v = true := valueMatchesB_qf hp hvm
      obtain ⟨h1, _⟩ := qf_quote_inj hs hqv hveq
      rw [h1] at hv
      exact hv hvm

/-! ### Arithmetic of the trailing-attribute test -/

theorem endsWithCI_le {ci : Bool} {s t : List Char} (h : endsWithCI ci s t = true) :
    s.length ≤ t.length := by
  by_cases hl : s.length ≤ t.length
  · exact hl
  · simp [endsWithCI, hl] at h

theorem endsWithCI_eq_len {ci : Bool} {s t : List Char} (h : s.length = t.length) :
    endsWithCI ci s t = eqCL ci s t := by
  simp [endsWithCI, h, Nat.le_refl]

theorem endsWithCI_nil_ne {ci : Bool} {s : List Char} (h : s ≠ []) :
    endsWithCI ci s [] = false := by
  cases s with
  | nil => exact absurd rfl h
  | cons a s2 => simp [endsWithCI]

theorem endsWithCI_cons {ci : Bool} {s : List Char} (c : Char) (t : List Char)
    (h : s.length ≠ t.length + 1) : endsWithCI ci s (c :: t) = endsWithCI ci s t := by
  simp only [endsWithCI, List.length_cons]
  by_cases h1 : s.length ≤ t.length
  · rw [if_pos (by omega), if_pos h1]
    have h2 : t.length + 1 - s.length = (t.length - s.length) + 1 := by omega
    rw [h2, List.drop_succ_cons]
  · rw [if_neg (by omega), if_neg h1]

theorem normAttr_cons {attr : List Char} (c : Char) (t : List Char)
    (h : attr.length + 1 ≤ t.length) : normAttr attr (c :: t) = c :: normAttr attr t := by
  simp only [normAttr, List.length_cons]
  have h2 : t.length + 1 - (attr.length + 1) = (t.length - (attr.length + 1)) + 1 := by
    omega
  rw [h2, List.take_succ_cons]
  simp

theorem normAttr_eq_len {attr t : List Char} (h : t.length = attr.length + 1) :
    normAttr attr t = attr ++ ['='] := by
  simp [normAttr, h]

theorem eqCL_ne_nil {ci : Bool} {s : List Char} (h : s ≠ []) : eqCL ci s [] = false := by
  cases s with
  | nil => exact absurd rfl h
  | cons a t => simp [eqCL]

/-- How one `re.sub` scan traverses one quote-free segment `t` followed by a
quote: the only position where a site can start is the one where `t` ends
with a case variant of `attr=`; if the value matches there, the site is
replaced (with the attribute name canonicalized) and scanning resumes after
the value's closing quote, otherwise the segment is copied verbatim and
scanning continues after the quote. -/
theorem re_sub_walk {attr : List Char} {ci : Bool} {p : Pat} {repl : List Char}
    (ha : qfB attr = true) :
    ∀ (t : List Char), qfB t = true → ∀ (w : List Char),
      re_sub attr ci p repl (t ++ '"' :: w) =
        if endsWithCI ci (attr ++ ['=']) t then
          match matchVal ci p w with
          | some w2 =>
            (normAttr attr t ++ '"' :: repl ++ '"' :: (re_sub attr ci p repl w2).1,
             (re_sub attr ci p repl w2).2 + 1)
          | none =>
            (t ++ '"' :: (re_sub attr ci p repl w).1, (re_sub attr ci p repl w).2)
        else (t ++ '"' :: (re_sub attr ci p repl w).1, (re_sub attr ci p repl w).2) := by
  intro t
  induction t with
  | nil =>
    intro _ w
    have hnone := @tryMatch_boundary_ne attr ci p [] (by decide) ha
      (eqCL_ne_nil (by simp)) w
    rw [endsWithCI_nil_ne (by simp)]
    simp only [List.nil_append, Bool.false_eq_true, if_false]
    simp only [List.nil_append] at hnone
    rw [re_sub_cons, hnone]
  | cons c t2 ih =>
    intro hq w
    have hq2 : qfB t2 = true := by
      simp only [qfB, List.all_cons, Bool.and_eq_true] at hq
      simpa [qfB] using hq.2
    rw [show (c :: t2) ++ '"' :: w = c :: (t2 ++ '"' :: w) from rfl, re_sub_cons]
    by_cases he : eqCL ci (attr ++ ['=']) (c :: t2) = true
    · have hb := tryMatch_boundary_eq (p := p) he w
      rw [List.cons_append] at hb
      rw [hb]
      have hlen := eqCL_length he
      have hend : endsWithCI ci (attr ++ ['=']) (c :: t2) = true := by
        rw [endsWithCI_eq_len hlen]
        exact he
      rw [hend]
      simp only [if_true]
      cases hmv : matchVal ci p w with
      | some w2 =>
        rw [normAttr_eq_len (by simpa using hlen.symm)]
        simp
      | none =>
        have hend2 : endsWithCI ci (attr ++ ['=']) t2 = false := by
          have hgt : ¬(attr.length + 1 ≤ t2.length) := by
            simp only [List.length_append, List.length_cons, List.length_nil] at hlen
            omega
          simp [endsWithCI, hgt]
        rw [ih hq2 w, hend2]
        simp
    · have hb := tryMatch_boundary_ne (p := p) hq ha ((Bool.not_eq_true _).mp he) w
      rw [List.cons_append] at hb
      rw [hb, ih hq2 w]
      by_cases hlen : (attr ++ ['=']).length = t2.length + 1
      · have h1 : endsWithCI ci (attr ++ ['=']) (c :: t2) = false := by
          rw [endsWithCI_eq_len (by simpa using hlen)]
          exact (Bool.not_eq_true _).mp he
        have h2 : endsWithCI ci (attr ++ ['=']) t2 = false := by
          have hgt2 : ¬(attr.length + 1 ≤ t2.length) := by
            simp only [List.length_append, List.length_cons, List.length_nil] at hlen
            omega
          simp [endsWithCI, hgt2]
        rw [h1, h2]
        simp
      · rw [endsWithCI_cons c t2 (by simpa using hlen)]
        cases hee : endsWithCI ci (attr ++ ['=']) t2 with
        | false => simp
        | true =>
          have hle := endsWithCI_le hee
          rw [normAttr_cons c t2 (by simpa using hle)]
          cases matchVal ci p w <;> simp

theorem qf_take {l : List Char} (n : Nat) (h : qfB l = true) : qfB (l.take n) = true := by
  simp only [qfB, List.all_eq_true] at h ⊢
  intro c hc
  exact h c (List.take_subset n l hc)

theorem qf_normAttr {attr prev : List Char} (ha : qfB attr = true)
    (h : qfB prev = true) : qfB (normAttr attr prev) = true := by
  simp only [normAttr, qf_append, Bool.and_eq_true]
  exact ⟨⟨qf_take _ h, ha⟩, by decide⟩

theorem scanSegs_fire {attr : List Char} {ci : Bool} {p : Pat} {repl : List Char}
    {prev seg s2 : List Char} {rest : List (List Char)}
    (h : (endsWithCI ci (attr ++ ['=']) prev && valueMatchesB ci p seg) = true) :
    scanSegs attr ci p repl prev (seg :: s2 :: rest) =
      (normAttr attr prev :: repl :: (scanSegs attr ci p repl s2 rest).1,
       (scanSegs attr ci p repl s2 rest).2 + 1) := by
  simp [scanSegs, h]

theorem scanSegs_skip {attr : List Char} {ci : Bool} {p : Pat} {repl : List Char}
    {prev seg s2 : List Char} {rest : List (List Char)}
    (h : (endsWithCI ci (attr ++ ['=']) prev && valueMatchesB ci p seg) = false) :
    scanSegs attr ci p repl prev (seg :: s2 :: rest) =
      (prev :: (scanSegs attr ci p repl seg (s2 :: rest)).1,
       (scanSegs attr ci p repl seg (s2 :: rest)).2) := by
  simp [scanSegs, h]

theorem scanSegs_all_qf {attr : List Char} {ci : Bool} {p : Pat} {repl : List Char}
    (ha : qfB attr = true) (hr : qfB repl = true) :
    ∀ (prev : List Char) (segs : List (List Char)), qfB prev = true → segs.all qfB = true →
      ((scanSegs attr ci p repl prev segs).1).all qfB = true := by
  intro prev segs
  induction prev, segs using scanSegs.induct attr ci p repl with
  | case1 prev =>
    intro h1 _
    simpa [scanSegs] using h1
  | case2 prev seg =>
    intro h1 h2
    show ([prev, seg].all qfB) = true
    simp only [List.all_cons, List.all_nil, Bool.and_true, Bool.and_eq_true]
    exact ⟨h1, by simpa using h2⟩
  | case3 prev seg s2 rest hcond ih =>
    intro h1 h2
    simp only [List.all_cons, Bool.and_eq_true] at h2
    rw [scanSegs_fire hcond]
    simp only [List.all_cons, Bool.and_eq_true]
    exact ⟨qf_normAttr ha h1, hr, ih h2.2.1 h2.2.2⟩
  | case4 prev seg s2 rest hcond ih =>
    intro h1 h2
    simp only [List.all_cons, Bool.and_eq_true] at h2
    rw [scanSegs_skip ((Bool.not_eq_true _).mp hcond)]
    simp only [List.all_cons, Bool.and_eq_true]
    refine ⟨h1, ih h2.1 ?_⟩
    simp only [List.all_cons, Bool.and_eq_true]
    exact ⟨h2.2.1, h2.2.2⟩

/-- The character-level `re.sub` scan agrees with the segment-level scan on
quote-segmented content. -/
theorem re_sub_joinQ {attr : List Char} {ci : Bool} {p : Pat} {repl : List Char}
    (ha : qfB attr = true) (hp : qfB p.lit = true) :
    ∀ (prev : List Char) (segs : List (List Char)), qfB prev = true → segs.all qfB = true →
      re_sub attr ci p repl (joinQ (prev :: segs)) =
        (joinQ ((scanSegs attr ci p repl prev segs).1),
         (scanSegs attr ci p repl prev segs).2) := by
  intro prev segs
  induction prev, segs using scanSegs.induct attr ci p repl with
  | case1 prev =>
    intro h1 _
    show re_sub attr ci p repl (joinQ [prev]) = _
    rw [show joinQ [prev] = prev from rfl, re_sub_qf h1]
    rfl
  | case2 prev seg =>
    intro h1 h2
    have hseg : qfB seg = true := by simpa using h2
    show re_sub attr ci p repl (joinQ [prev, seg]) = _
    rw [show joinQ [prev, seg] = prev ++ '"' :: seg from rfl]
    rw [re_sub_walk ha prev h1 seg, matchVal_none_of_qf hseg, re_sub_qf hseg]
    simp [scanSegs, joinQ]
  | case3 prev seg s2 rest hcond ih =>
    intro h1 h2
    simp only [List.all_cons, Bool.and_eq_true] at h2
    obtain ⟨hend, hvm⟩ := Bool.and_eq_true_iff.mp hcond
    have ihh := ih h2.2.1 h2.2.2
    show re_sub attr ci p repl (joinQ (prev :: seg :: s2 :: rest)) = _
    rw [joinQ_cons prev (by simp), joinQ_cons seg (by simp)]
    rw [re_sub_walk ha prev h1 (seg ++ '"' :: joinQ (s2 :: rest)), if_pos hend]
    rw [matchVal_boundary hp h2.1 (joinQ (s2 :: rest)), if_pos hvm]
    simp only [ihh, scanSegs_fire hcond]
    rw [joinQ_cons (normAttr attr prev) (by simp),
      joinQ_cons repl (scanSegs_ne_nil attr ci p repl s2 rest)]
    simp
  | case4 prev seg s2 rest hcond ih =>
    intro h1 h2
    simp only [List.all_cons, Bool.and_eq_true] at h2
    have hcond2 := (Bool.not_eq_true _).mp hcond
    have ihh := ih h2.1 (by
      simp only [List.all_cons, Bool.and_eq_true]
      exact ⟨h2.2.1, h2.2.2⟩)
    show re_sub attr ci p repl (joinQ (prev :: seg :: s2 :: rest)) = _
    rw [joinQ_cons prev (by simp)]
    rw [re_sub_walk ha prev h1 (joinQ (seg :: s2 :: rest))]
    rw [scanSegs_skip hcond2, joinQ_cons prev (scanSegs_ne_nil attr ci p repl seg (s2 :: rest))]
    cases hee : endsWithCI ci (attr ++ ['=']) prev with
    | false =>
      rw [if_neg Bool.false_ne_true]
      simp [ihh]
    | true =>
      have hvm : valueMatchesB ci p seg = false := by
        cases hvb : valueMatchesB ci p seg
        · rfl
        · rw [hee, hvb] at hcond2
          simp at hcond2
      have hmv : matchVal ci p (joinQ (seg :: s2 :: rest)) = none := by
        rw [joinQ_cons seg (by simp), matchVal_boundary hp h2.1 (joinQ (s2 :: rest))]
        simp [hvm]
      rw [if_pos rfl, hmv]
      simp [ihh]

/-! ### The full upgrade as a list of scans -/

/-- One `re.sub` invocation of the run: attribute name, IGNORECASE flag,
pattern and replacement. -/
structure SRule where
  attr : List Char
  ci : Bool
  pat : Pat
  repl : List Char
deriving DecidableEq

/-- The scans performed by `simplify_executable_types`, in order: for each
rule, one per target attribute. -/
def execScans : List SRule :=
  EXECUTABLE_TYPE_MAPPINGS.flatMap
    (fun pr => EXEC_ATTRS.map (fun a => ⟨a, isGuidPat pr.1, pr.1, pr.2⟩))

/-- The scans performed by `upgrade_component_classids`, in order. -/
def classidScans : List SRule :=
  COMPONENT_CLASSID_MAPPINGS.map (fun pr => ⟨CCID_ATTR, false, pr.1, pr.2⟩)
  ++ GUID_COMPONENT_CLASSID_MAPPINGS.map (fun pr => ⟨CCID_ATTR, true, pr.1, pr.2⟩)

/-- All scans of a full upgrade, in execution order. -/
def allScans : List SRule := execScans ++ classidScans

/-- Run a list of scans over a `(content, count)` accumulator. -/
def runScans (l : List SRule) (acc : List Char × Nat) : List Char × Nat :=
  l.foldl (fun a r => subStep r.attr r.ci r.pat r.repl a) acc

theorem foldl_flatMap {α β γ : Type} (g : α → List β) (f : γ → β → γ) :
    ∀ (l : List α) (init : γ),
      (l.flatMap g).foldl f init = l.foldl (fun acc a => (g a).foldl f acc) init := by
  intro l
  induction l with
  | nil => intro init; rfl
  | cons a t ih =>
    intro init
    simp only [List.flatMap_cons, List.foldl_append, List.foldl_cons]
    rw [ih]

theorem simplify_as_scans (c : List Char) :
    simplify_executable_types c = runScans execScans (c, 0) := by
  unfold simplify_executable_types runScans execScans
  rw [foldl_flatMap]
  simp only [List.foldl_map]

theorem classids_as_scans (c : List Char) :
    upgrade_component_classids c = runScans classidScans (c, 0) := by
  unfold upgrade_component_classids runScans classidScans
  rw [List.foldl_append, List.foldl_map, List.foldl_map]

theorem runScans_fst_count : ∀ (l : List SRule) (c : List Char) (n m : Nat),
    (runScans l (c, n)).1 = (runScans l (c, m)).1 := by
  intro l
  induction l with
  | nil => intro c n m; rfl
  | cons r t ih =>
    intro c n m
    simp only [runScans, List.foldl_cons, subStep]
    exact ih _ _ _

theorem fullUpgrade_as_scans (c : List Char) :
    fullUpgrade c = (runScans allScans (c, 0)).1 := by
  unfold fullUpgrade
  rw [simplify_as_scans c, classids_as_scans]
  have hsplit : runScans allScans (c, 0) = runScans classidScans (runScans execScans (c, 0)) := by
    unfold allScans runScans
    exact List.foldl_append _ _ _ _
  rw [hsplit]
  cases he : runScans execScans (c, 0) with
  | mk c1 n1 => exact runScans_fst_count classidScans c1 0 n1

/-! ### The full pass at segment level -/

/-- One scan on a segment list. -/
def scanSegsR (r : SRule) (segs : List (List Char)) : List (List Char) × Nat :=
  match segs with
  | [] => ([], 0)
  | s0 :: rest => scanSegs r.attr r.ci r.pat r.repl s0 rest

/-- All scans on a segment list. -/
def passSegs (l : List SRule) (segs : List (List Char)) : List (List Char) :=
  l.foldl (fun ss r => (scanSegsR r ss).1) segs

/-- Rule hygiene: attribute, pattern literal and replacement are quote-free. -/
def ruleOK (r : SRule) : Bool := qfB r.attr && qfB r.pat.lit && qfB r.repl

theorem allScans_OK : allScans.all ruleOK = true := by decide

theorem runScans_joinQ : ∀ (l : List SRule), l.all ruleOK = true →
    ∀ (segs : List (List Char)) (n : Nat), segs ≠ [] → segs.all qfB = true →
      (runScans l (joinQ segs, n)).1 = joinQ (passSegs l segs)
      ∧ passSegs l segs ≠ [] ∧ (passSegs l segs).all qfB = true := by
  intro l
  induction l with
  | nil => intro _ segs n hne hqf; exact ⟨rfl, hne, hqf⟩
  | cons r t ih =>
    intro hok segs n hne hqf
    simp only [List.all_cons, Bool.and_eq_true] at hok
    obtain ⟨⟨hra, hrp⟩, hrr⟩ : (qfB r.attr = true ∧ qfB r.pat.lit = true) ∧ qfB r.repl = true := by
      have := hok.1
      simp only [ruleOK, Bool.and_eq_true] at this
      exact this
    cases segs with
    | nil => exact absurd rfl hne
    | cons s0 rest =>
      simp only [List.all_cons, Bool.and_eq_true] at hqf
      have hstep := @re_sub_joinQ r.attr r.ci r.pat r.repl hra hrp s0 rest hqf.1 hqf.2
      simp only [runScans, List.foldl_cons, subStep, passSegs]
      rw [hstep]
      have hqout := @scanSegs_all_qf r.attr r.ci r.pat r.repl hra hrr s0 rest hqf.1 hqf.2
      have hneout := scanSegs_ne_nil r.attr r.ci r.pat r.repl s0 rest
      have ihh := ih hok.2 ((scanSegs r.attr r.ci r.pat r.repl s0 rest).1)
        (n + (scanSegs r.attr r.ci r.pat r.repl s0 rest).2) hneout hqout
      simp only [runScans, passSegs] at ihh ⊢
      refine ⟨?_, ?_, ?_⟩
      · rw [show (scanSegsR r (s0 :: rest)).1 = (scanSegs r.attr r.ci r.pat r.repl s0 rest).1
          from rfl]
        exact ihh.1
      · rw [show (scanSegsR r (s0 :: rest)).1 = (scanSegs r.attr r.ci r.pat r.repl s0 rest).1
          from rfl]
        exact ihh.2.1
      · rw [show (scanSegsR r (s0 :: rest)).1 = (scanSegs r.attr r.ci r.pat r.repl s0 rest).1
          from rfl]
        exact ihh.2.2

/-! ### Character and list utilities for the idempotence proof -/

/-- Last element with a default. -/
def lastD (d : Char) : List Char → Char
  | [] => d
  | [c] => c
  | _ :: c :: t => lastD d (c :: t)

theorem lastD_cons_ne (d a : Char) : ∀ (l : List Char), l ≠ [] →
    lastD d (a :: l) = lastD d l := by
  intro l hl
  cases l with
  | nil => exact absurd rfl hl
  | cons c t => rfl

theorem lastD_concat (d c : Char) : ∀ (Y : List Char), lastD d (Y ++ [c]) = c := by
  intro Y
  induction Y with
  | nil => rfl
  | cons y t ih =>
    rw [List.cons_append, lastD_cons_ne d y (t ++ [c]) (by simp), ih]

theorem lastD_mem (d : Char) : ∀ (l : List Char), l ≠ [] → lastD d l ∈ l := by
  intro l
  induction l with
  | nil => intro h; exact absurd rfl h
  | cons c t ih =>
    intro _
    cases t with
    | nil => simp [lastD]
    | cons c2 t2 =>
      rw [lastD_cons_ne d c (c2 :: t2) (by simp)]
      exact List.mem_cons_of_mem c (ih (by simp))

theorem lastD_append_ne (d : Char) : ∀ (l1 l2 : List Char), l2 ≠ [] →
    lastD d (l1 ++ l2) = lastD d l2 := by
  intro l1 l2 h2
  induction l1 with
  | nil => rfl
  | cons a t ih =>
    rw [List.cons_append, lastD_cons_ne d a (t ++ l2) (by simp [h2]), ih]

theorem eqCL_refl (ci : Bool) : ∀ (l : List Char), eqCL ci l l = true := by
  intro l
  induction l with
  | nil => rfl
  | cons c t ih => simp [eqCL, eqC_refl, ih]

theorem toLower_eqsign (c : Char) (h : c.toLower = '=') : c = '=' := by
  unfold Char.toLower at h
  simp only at h
  by_cases hu : c.toNat ≥ 65 ∧ c.toNat ≤ 90
  · rw [if_pos hu] at h
    exfalso
    have hv := congrArg Char.toNat h
    rw [toNat_ofNat_letters (c.toNat + 32) (by omega) (by omega)] at hv
    have h61 : ('=' : Char).toNat = 61 := by decide
    omega
  · rw [if_neg hu] at h
    exact h

theorem eqC_eqsign_left {ci : Bool} {c : Char} (h : eqC ci '=' c = true) : c = '=' := by
  cases ci with
  | false =>
    have h2 : '=' = c := by simpa [eqC] using h
    exact h2.symm
  | true =>
    have h2 : ('=' : Char).toLower = c.toLower := by simpa [eqC] using h
    exact toLower_eqsign c (by rw [← h2]; decide)

theorem eqC_eqsign_right {ci : Bool} {c : Char} (h : eqC ci c '=' = true) : c = '=' := by
  cases ci with
  | false => simpa [eqC] using h
  | true =>
    have h2 : c.toLower = ('=' : Char).toLower := by simpa [eqC] using h
    exact toLower_eqsign c (by rw [h2]; decide)

theorem eqCL_concat_right {ci : Bool} {d : Char} :
    ∀ {Y s : List Char}, eqCL ci s (Y ++ [d]) = true →
      s ≠ [] ∧ eqC ci (lastD 'x' s) d = true := by
  intro Y
  induction Y with
  | nil =>
    intro s h
    cases s with
    | nil => simp [eqCL] at h
    | cons c s' =>
      cases s' with
      | nil =>
        simp only [List.nil_append, eqCL, Bool.and_eq_true] at h
        exact ⟨by simp, by simpa [lastD] using h.1⟩
      | cons c2 s2 => simp [eqCL] at h
  | cons y Y' ih =>
    intro s h
    cases s with
    | nil => simp [eqCL] at h
    | cons c s' =>
      rw [List.cons_append] at h
      simp only [eqCL, Bool.and_eq_true] at h
      obtain ⟨hne, hlast⟩ := ih h.2
      refine ⟨by simp, ?_⟩
      rw [lastD_cons_ne 'x' c s' hne]
      exact hlast

theorem endsWith_last {ci : Bool} {s v : List Char} {c : Char}
    (h : endsWithCI ci (s ++ [c]) v = true) :
    v ≠ [] ∧ eqC ci c (lastD 'x' v) = true := by
  have hle := endsWithCI_le h
  unfold endsWithCI at h
  rw [if_pos hle] at h
  obtain ⟨v1, v2, hsplit, _, h2⟩ := eqCL_split h
  obtain ⟨e, rfl, he⟩ : ∃ e, v2 = [e] ∧ eqC ci c e = true := by
    cases v2 with
    | nil => simp [eqCL] at h2
    | cons e t =>
      cases t with
      | nil => exact ⟨e, rfl, by simpa [eqCL] using h2⟩
      | cons e2 t2 => simp [eqCL] at h2
  have hvd : v.drop (v.length - (s ++ [c]).length) = v1 ++ [e] := hsplit
  have hv : v = v.take (v.length - (s ++ [c]).length) ++ (v1 ++ [e]) := by
    rw [← hvd, List.take_append_drop]
  constructor
  · intro hnil
    rw [hnil] at hv
    exact absurd hv.symm (by simp)
  · rw [hv, lastD_append_ne 'x' _ _ (by simp), lastD_concat]
    exact he

/-- A pattern literal does not end in (a case variant of) the `=` sign. -/
def lastNE (s : List Char) : Bool :=
  match s with
  | [] => true
  | _ => !((lastD 'x' s).toLower == '=')

theorem valueMatchesB_end_eq {ci : Bool} {s Y : List Char} (hE : lastNE s = true) :
    valueMatchesB ci (Pat.exact s) (Y ++ ['=']) = false ∧
    valueMatchesB ci (Pat.optNumSuffix s) (Y ++ ['=']) = false := by
  have hexact : eqCL ci s (Y ++ ['=']) = false := by
    cases he : eqCL ci s (Y ++ ['=']) with
    | false => rfl
    | true =>
      exfalso
      obtain ⟨hne, hlast⟩ := eqCL_concat_right he
      have heq : lastD 'x' s = '=' := eqC_eqsign_right hlast
      cases s with
      | nil => exact absurd rfl hne
      | cons c t =>
        simp only [lastNE, heq] at hE
        simp at hE
  constructor
  · simpa [valueMatchesB] using hexact
  · cases hm : matchChars ci s (Y ++ ['=']) with
    | none => simp [valueMatchesB, hm]
    | some r =>
      obtain ⟨v1, hv1, hv2⟩ := matchChars_some_decomp hm
      cases r with
      | nil =>
        exfalso
        rw [List.append_nil] at hv1
        rw [hv1] at hexact
        rw [hv2] at hexact
        exact Bool.noConfusion hexact
      | cons c2 r2 =>
        by_cases hc2 : c2 = '.'
        · subst hc2
          simp only [valueMatchesB, hm]
          cases hr2 : r2.isEmpty with
          | true => simp
          | false =>
            simp only [Bool.not_false, Bool.true_and]
            cases hd : r2.all Char.isDigit with
            | false => rfl
            | true =>
              exfalso
              have hr2ne : r2 ≠ [] := by
                cases r2 with
                | nil => simp [List.isEmpty] at hr2
                | cons _ _ => simp
              have hl1 : lastD 'x' (Y ++ ['=']) = '=' := lastD_concat 'x' '=' Y
              rw [hv1] at hl1
              rw [lastD_append_ne 'x' v1 _ (by simp)] at hl1
              rw [lastD_cons_ne 'x' '.' r2 hr2ne] at hl1
              have hmem := lastD_mem 'x' r2 hr2ne
              have hdig := List.all_eq_true.mp hd _ hmem
              rw [hl1] at hdig
              simp at hdig
        · simp [valueMatchesB, hm, hc2]

/-! ### Substring decomposition over an append -/

theorem sw_append_left {ci : Bool} {B : List Char} :
    ∀ {s v : List Char}, startsWithB ci s v = true → startsWithB ci s (v ++ B) = true := by
  intro s
  induction s with
  | nil => intro v _; cases v <;> simp [startsWithB]
  | cons c s' ih =>
    intro v h
    cases v with
    | nil => simp [startsWithB] at h
    | cons d v' =>
      simp only [startsWithB, Bool.and_eq_true] at h
      simp only [List.cons_append, startsWithB, Bool.and_eq_true]
      exact ⟨h.1, ih h.2⟩

theorem hasSub_of_sw {ci : Bool} {s v : List Char} (h : startsWithB ci s v = true) :
    hasSubB ci s v = true := by
  cases v with
  | nil =>
    cases s with
    | nil => rfl
    | cons c t => simp [startsWithB] at h
  | cons c v' => simp [hasSubB, h]

theorem hasSub_cons_of_tail {ci : Bool} {s v : List Char} {a : Char}
    (h : hasSubB ci s v = true) : hasSubB ci s (a :: v) = true := by
  simp [hasSubB, h]

theorem hasSub_append_left {ci : Bool} {B : List Char} :
    ∀ {s A : List Char}, hasSubB ci s A = true → hasSubB ci s (A ++ B) = true := by
  intro s A
  induction A with
  | nil =>
    intro h
    simp only [hasSubB, List.isEmpty_iff] at h
    subst h
    cases B with
    | nil => rfl
    | cons c v => simp [hasSubB, startsWithB]
  | cons a A' ih =>
    intro h
    simp only [hasSubB, List.tail_cons, Bool.or_eq_true] at h
    rcases h with h | h
    · exact hasSub_of_sw (sw_append_left h)
    · exact hasSub_cons_of_tail (ih h)

theorem hasSub_take {ci : Bool} {s l : List Char} {k : Nat}
    (h : hasSubB ci s (l.take k) = true) : hasSubB ci s l = true := by
  rw [← List.take_append_drop k l]
  exact hasSub_append_left h

theorem sw_append_cases {ci : Bool} {B : List Char} :
    ∀ (X s : List Char), startsWithB ci s (X ++ B) = true →
      startsWithB ci s X = true ∨
      (X.length < s.length ∧ startsWithB ci (s.drop X.length) B = true) := by
  intro X
  induction X with
  | nil =>
    intro s h
    cases s with
    | nil => left; rfl
    | cons c s' => right; exact ⟨by simp, h⟩
  | cons x X' ih =>
    intro s h
    cases s with
    | nil => left; rfl
    | cons c s' =>
      rw [List.cons_append] at h
      simp only [startsWithB, Bool.and_eq_true] at h
      rcases ih s' h.2 with h1 | ⟨hlt, hsw⟩
      · left
        simp [startsWithB, h.1, h1]
      · right
        exact ⟨by simpa using hlt, hsw⟩

theorem hasSub_append_cases {ci : Bool} {B : List Char} :
    ∀ (A s : List Char), hasSubB ci s (A ++ B) = true →
      hasSubB ci s A = true ∨ hasSubB ci s B = true ∨
      ∃ j, 0 < j ∧ j < s.length ∧ startsWithB ci (s.drop j) B = true := by
  intro A
  induction A with
  | nil =>
    intro s h
    right; left
    exact h
  | cons a A' ih =>
    intro s h
    rw [List.cons_append] at h
    simp only [hasSubB, List.tail_cons, Bool.or_eq_true] at h
    rcases h with h | h
    · rcases sw_append_cases (a :: A') s h with h1 | ⟨hlt, hsw⟩
      · left
        exact hasSub_of_sw h1
      · right; right
        exact ⟨(a :: A').length, by simp, hlt, hsw⟩
    · rcases ih s h with h1 | h1 | h1
      · left
        exact hasSub_cons_of_tail h1
      · right; left; exact h1
      · right; right; exact h1

/-! ### Attribute-suffix compatibility -/

theorem eqCL_append_right {ci : Bool} : ∀ {Z s t : List Char},
    eqCL ci s (Z ++ t) = true → eqCL ci (s.drop Z.length) t = true := by
  intro Z
  induction Z with
  | nil => intro s t h; simpa using h
  | cons z Z' ih =>
    intro s t h
    cases s with
    | nil => simp [eqCL] at h
    | cons c s' =>
      rw [List.cons_append] at h
      simp only [eqCL, Bool.and_eq_true] at h
      simpa [List.length_cons] using ih h.2

theorem endsWithCI_append_compat {ci : Bool} {s X t : List Char}
    (h : endsWithCI ci s (X ++ t) = true) :
    (if s.length ≤ t.length then eqCL ci s (t.drop (t.length - s.length))
     else eqCL ci (s.drop (s.length - t.length)) t) = true := by
  have hle := endsWithCI_le h
  rw [List.length_append] at hle
  unfold endsWithCI at h
  rw [if_pos (by rw [List.length_append]; omega)] at h
  by_cases hst : s.length ≤ t.length
  · rw [if_pos hst]
    rw [List.drop_append_eq_append_drop] at h
    rw [List.drop_eq_nil_of_le (by rw [List.length_append]; omega)] at h
    rw [List.nil_append] at h
    have harith : (X ++ t).length - s.length - X.length = t.length - s.length := by
      rw [List.length_append]; omega
    rw [harith] at h
    exact h
  · rw [if_neg hst]
    rw [List.drop_append_eq_append_drop] at h
    have harith : (X ++ t).length - s.length - X.length = 0 := by
      rw [List.length_append]; omega
    rw [harith, List.drop_zero] at h
    have hXlen : (X.drop ((X ++ t).length - s.length)).length = s.length - t.length := by
      rw [List.length_drop, List.length_append]; omega
    have h3 := eqCL_append_right h
    rw [hXlen] at h3
    exact h3

/-- Canonical attribute spelling after a fire is idempotent. -/
theorem normAttr_idem (attr prev : List Char) :
    normAttr attr (normAttr attr prev) = normAttr attr prev := by
  unfold normAttr
  have h1 : (prev.take (prev.length - (attr.length + 1)) ++ attr ++ ['=']).length -
      (attr.length + 1) = (prev.take (prev.length - (attr.length + 1))).length := by
    simp [List.length_append]
  rw [h1]
  have htake : (prev.take (prev.length - (attr.length + 1)) ++ attr ++ ['=']).take
      (prev.take (prev.length - (attr.length + 1))).length =
      prev.take (prev.length - (attr.length + 1)) := by
    rw [List.append_assoc]
    exact List.take_left _ _
  rw [htake]

theorem normAttr_shape (attr prev : List Char) :
    normAttr attr prev = prev.take (prev.length - (attr.length + 1)) ++ (attr ++ ['=']) := by
  unfold normAttr
  rw [List.append_assoc]

/-! ### The self-only invariant: every live site is self-replacing -/

/-- A site `(a, b)` (text before the opening quote, quoted value) is
self-replacing for rule `r`: if it fires, the rewrite changes nothing. -/
def SOpair (r : SRule) (a b : List Char) : Prop :=
  endsWithCI r.ci (r.attr ++ ['=']) a = true → valueMatchesB r.ci r.pat b = true →
    normAttr r.attr a = a ∧ r.repl = b

/-- Every consecutive segment pair that is followed by a closing quote (one
more segment) is self-replacing for `r`. -/
def SOall (r : SRule) : List (List Char) → Prop
  | a :: b :: c :: rest => SOpair r a b ∧ SOall r (b :: c :: rest)
  | _ => True

theorem SOall_tail (r : SRule) (a : List Char) :
    ∀ (l : List (List Char)), SOall r (a :: l) → SOall r l := by
  intro l h
  cases l with
  | nil => exact trivial
  | cons b t =>
    cases t with
    | nil => exact trivial
    | cons c rest => exact h.2

theorem SOall_cons (r : SRule) (a : List Char) (l : List (List Char))
    (hl : SOall r l) (hp : ∀ b, l.head? = some b → SOpair r a b) :
    SOall r (a :: l) := by
  cases l with
  | nil => exact trivial
  | cons b t =>
    cases t with
    | nil => exact trivial
    | cons c rest => exact ⟨hp b rfl, hl⟩

theorem scanSegs_head (attr : List Char) (ci : Bool) (p : Pat) (repl : List Char)
    (prev : List Char) (segs : List (List Char)) :
    (scanSegs attr ci p repl prev segs).1.head? = some prev ∨
    ((scanSegs attr ci p repl prev segs).1.head? = some (normAttr attr prev) ∧
      endsWithCI ci (attr ++ ['=']) prev = true) := by
  cases segs with
  | nil => left; rfl
  | cons seg rest =>
    cases rest with
    | nil => left; rfl
    | cons s2 rest2 =>
      by_cases h : (endsWithCI ci (attr ++ ['=']) prev && valueMatchesB ci p seg) = true
      · right
        constructor
        · rw [scanSegs_fire h]
          rfl
        · have h' := h
          simp only [Bool.and_eq_true] at h'
          exact h'.1
      · left
        rw [scanSegs_skip (Bool.eq_false_iff.mpr h)]
        rfl

/-! ### Decidable facts about the rule tables -/

/-- All attribute names targeted anywhere in the run. -/
def ALL_ATTRS : List (List Char) := EXEC_ATTRS ++ [CCID_ATTR]

/-- The literal `s` occurs nowhere in `B` and no proper suffix of `s` opens a
run that continues into `B`. -/
def noStraddle (s B : List Char) : Bool :=
  !(hasSubB false s B) &&
  ((List.range s.length).all (fun j => (j == 0) || !(startsWithB false (s.drop j) B)))

/-- Can a text that ends with `rs.attr=` (canonically spelled) also end with a
case variant of `ru.attr=`?  Decidable overlap test on the visible suffix. -/
def attrCompatB (ru rs : SRule) : Bool :=
  if (ru.attr ++ ['=']).length ≤ (rs.attr ++ ['=']).length then
    eqCL ru.ci (ru.attr ++ ['='])
      ((rs.attr ++ ['=']).drop ((rs.attr ++ ['=']).length - (ru.attr ++ ['=']).length))
  else
    eqCL ru.ci ((ru.attr ++ ['=']).drop ((ru.attr ++ ['=']).length - (rs.attr ++ ['=']).length))
      (rs.attr ++ ['='])

/-- Non-wildcard pattern literals do not end in `=`. -/
def patLastOK (r : SRule) : Bool :=
  match r.pat with
  | Pat.contains _ => true
  | _ => lastNE r.pat.lit

/-- Wildcard rules always match case-sensitively. -/
def ciOK (r : SRule) : Bool :=
  match r.pat with
  | Pat.contains _ => !r.ci
  | _ => true

/-- Wildcard literals cannot be produced by gluing value text to an
attribute-name suffix. -/
def straddleOK (r : SRule) : Bool :=
  match r.pat with
  | Pat.contains s => ALL_ATTRS.all (fun a => noStraddle s (a ++ ['=']))
  | _ => true

theorem factRepl : allScans.all (fun r => r.repl.all (fun c => !(c == '='))) = true := by
  decide

theorem factLast : allScans.all patLastOK = true := by decide

theorem factCi : allScans.all ciOK = true := by decide

theorem factStraddle : allScans.all straddleOK = true := by decide

theorem factAttrMem : allScans.all (fun r => ALL_ATTRS.any (fun a => a == r.attr)) = true := by
  decide

theorem factCompat : allScans.all (fun ru => allScans.all (fun rs =>
    (ru.attr == rs.attr) || !(attrCompatB ru rs))) = true := by decide

theorem factReplMatch : allScans.all (fun ru => allScans.all (fun rs =>
    !(ru.attr == rs.attr) || !(valueMatchesB ru.ci ru.pat rs.repl) ||
      (ru.repl == rs.repl))) = true := by decide

theorem repl_no_eqsign {r : SRule} (hr : r ∈ allScans) : ∀ c ∈ r.repl, c ≠ '=' := by
  intro c hc
  have h1 := List.all_eq_true.mp factRepl r hr
  have h2 := List.all_eq_true.mp h1 c hc
  simpa using h2

theorem ends_repl_false {ru rs : SRule} (hrs : rs ∈ allScans)
    (h : endsWithCI ru.ci (ru.attr ++ ['=']) rs.repl = true) : False := by
  obtain ⟨hne, heq⟩ := endsWith_last h
  have hlast : lastD 'x' rs.repl = '=' := eqC_eqsign_left heq
  have hmem := lastD_mem 'x' rs.repl hne
  rw [hlast] at hmem
  exact repl_no_eqsign hrs '=' hmem rfl

theorem scan_SOall (ru rs : SRule) (hru : ru ∈ allScans) (hrs : rs ∈ allScans) :
    ∀ (prev : List Char) (segs : List (List Char)),
      ((prev :: segs).all qfB) = true →
      (ru = rs ∨ SOall ru (prev :: segs)) →
      SOall ru (scanSegs rs.attr rs.ci rs.pat rs.repl prev segs).1 := by
  intro prev segs
  induction prev, segs using scanSegs.induct rs.attr rs.ci rs.pat rs.repl with
  | case1 prev =>
    intro _ _
    exact trivial
  | case2 prev seg =>
    intro _ _
    exact trivial
  | case3 prev seg s2 rest hcond ih =>
    intro hqf hin
    simp only [List.all_cons, Bool.and_eq_true] at hqf
    have hin' : ru = rs ∨ SOall ru (s2 :: rest) := by
      rcases hin with h | h
      · exact Or.inl h
      · exact Or.inr (SOall_tail ru seg _ (SOall_tail ru prev _ h))
    have hrec := ih (by simp [List.all_cons, hqf.2.2.1, hqf.2.2.2]) hin'
    rw [scanSegs_fire hcond]
    show SOall ru (normAttr rs.attr prev :: rs.repl ::
      (scanSegs rs.attr rs.ci rs.pat rs.repl s2 rest).1)
    refine SOall_cons ru _ _ (SOall_cons ru _ _ hrec ?_) ?_
    · intro b _ hends _
      exact (ends_repl_false hrs hends).elim
    · intro b hb
      have hbr : b = rs.repl := by
        rw [List.head?_cons] at hb
        exact (Option.some.inj hb).symm
      subst hbr
      intro hends hmatch
      have hends' : endsWithCI ru.ci (ru.attr ++ ['='])
          (prev.take (prev.length - (rs.attr.length + 1)) ++ (rs.attr ++ ['='])) = true := by
        rw [← normAttr_shape]
        exact hends
      have hcompat : attrCompatB ru rs = true := endsWithCI_append_compat hends'
      have hattr : ru.attr = rs.attr := by
        have hD := List.all_eq_true.mp (List.all_eq_true.mp factCompat ru hru) rs hrs
        rw [hcompat] at hD
        simp at hD
        exact hD
      constructor
      · rw [hattr]
        exact normAttr_idem rs.attr prev
      · have hA := List.all_eq_true.mp (List.all_eq_true.mp factReplMatch ru hru) rs hrs
        rw [hmatch] at hA
        simp [hattr] at hA
        exact hA
  | case4 prev seg s2 rest hcond ih =>
    intro hqf hin
    simp only [List.all_cons, Bool.and_eq_true] at hqf
    have hin' : ru = rs ∨ SOall ru (seg :: s2 :: rest) := by
      rcases hin with h | h
      · exact Or.inl h
      · exact Or.inr (SOall_tail ru prev _ h)
    have hrec := ih (by simp [List.all_cons, hqf.2.1, hqf.2.2.1, hqf.2.2.2]) hin'
    rw [scanSegs_skip (Bool.eq_false_iff.mpr hcond)]
    show SOall ru (prev :: (scanSegs rs.attr rs.ci rs.pat rs.repl seg (s2 :: rest)).1)
    refine SOall_cons ru _ _ hrec ?_
    intro b hb
    rcases scanSegs_head rs.attr rs.ci rs.pat rs.repl seg (s2 :: rest) with hh | ⟨hh, hendseg⟩
    · have hbs : b = seg := by
        rw [hh] at hb
        exact (Option.some.inj hb).symm
      subst hbs
      rcases hin with rfl | hso
      · intro hends hmatch
        exact absurd (by simp [hends, hmatch]) hcond
      · exact hso.1
    · have hbs : b = normAttr rs.attr seg := by
        rw [hh] at hb
        exact (Option.some.inj hb).symm
      subst hbs
      intro hends hmatch
      exfalso
      cases hpat : ru.pat with
      | exact s =>
        have hE := List.all_eq_true.mp factLast ru hru
        simp only [patLastOK, hpat, Pat.lit] at hE
        rw [hpat, normAttr_shape, ← List.append_assoc] at hmatch
        have hfalse := (@valueMatchesB_end_eq ru.ci s
          (seg.take (seg.length - (rs.attr.length + 1)) ++ rs.attr) hE).1
        rw [hmatch] at hfalse
        exact Bool.noConfusion hfalse
      | optNumSuffix s =>
        have hE := List.all_eq_true.mp factLast ru hru
        simp only [patLastOK, hpat, Pat.lit] at hE
        rw [hpat, normAttr_shape, ← List.append_assoc] at hmatch
        have hfalse := (@valueMatchesB_end_eq ru.ci s
          (seg.take (seg.length - (rs.attr.length + 1)) ++ rs.attr) hE).2
        rw [hmatch] at hfalse
        exact Bool.noConfusion hfalse
      | contains s =>
        have hci : ru.ci = false := by
          have h1 := List.all_eq_true.mp factCi ru hru
          simp only [ciOK, hpat] at h1
          simpa using h1
        rw [hpat, hci] at hmatch
        simp only [valueMatchesB, Bool.and_eq_true] at hmatch
        have hsub := hmatch.2
        rw [normAttr_shape] at hsub
        have h1 := List.all_eq_true.mp factStraddle ru hru
        simp only [straddleOK, hpat] at h1
        have hmemA : rs.attr ∈ ALL_ATTRS := by
          have h2 := List.all_eq_true.mp factAttrMem rs hrs
          obtain ⟨a, ha, hbeq⟩ := List.any_eq_true.mp h2
          have ha2 : a = rs.attr := by simpa using hbeq
          rw [← ha2]
          exact ha
        have hns := List.all_eq_true.mp h1 _ hmemA
        simp only [noStraddle, Bool.and_eq_true] at hns
        rcases hasSub_append_cases _ s hsub with hA | hB | ⟨j, hj0, hjlt, hsw⟩
        · have hsegsub : hasSubB false s seg = true := hasSub_take hA
          have hmseg : valueMatchesB ru.ci ru.pat seg = true := by
            rw [hpat, hci]
            simp only [valueMatchesB, Bool.and_eq_true]
            exact ⟨hqf.2.1, hsegsub⟩
          rcases hin with rfl | hso
          · exact absurd (by simp [hends, hmseg]) hcond
          · obtain ⟨_, hrepl⟩ := hso.1 hends hmseg
            obtain ⟨hne, heq⟩ := endsWith_last hendseg
            have hlast : lastD 'x' seg = '=' := eqC_eqsign_left heq
            have hmem := lastD_mem 'x' seg hne
            rw [hlast] at hmem
            rw [← hrepl] at hmem
            exact repl_no_eqsign hru '=' hmem rfl
        · rw [hB] at hns
          simp at hns
        · have hj := List.all_eq_true.mp hns.2 j (List.mem_range.mpr hjlt)
          have hjne : (j == 0) = false := by
            simp [Nat.pos_iff_ne_zero.mp hj0]
          rw [hjne] at hj
          simp only [Bool.false_or] at hj
          rw [hsw] at hj
          exact Bool.noConfusion hj

theorem scan_fix (r : SRule) : ∀ (prev : List Char) (segs : List (List Char)),
    SOall r (prev :: segs) → (scanSegs r.attr r.ci r.pat r.repl prev segs).1 = prev :: segs := by
  intro prev segs
  induction prev, segs using scanSegs.induct r.attr r.ci r.pat r.repl with
  | case1 prev => intro _; rfl
  | case2 prev seg => intro _; rfl
  | case3 prev seg s2 rest hcond ih =>
    intro h
    have hc := hcond
    simp only [Bool.and_eq_true] at hc
    obtain ⟨hn, hr⟩ := h.1 hc.1 hc.2
    rw [scanSegs_fire hcond]
    show normAttr r.attr prev :: r.repl :: (scanSegs r.attr r.ci r.pat r.repl s2 rest).1 =
      prev :: seg :: s2 :: rest
    rw [ih (SOall_tail r seg _ (SOall_tail r prev _ h)), hn, hr]
  | case4 prev seg s2 rest hcond ih =>
    intro h
    rw [scanSegs_skip (Bool.eq_false_iff.mpr hcond)]
    show prev :: (scanSegs r.attr r.ci r.pat r.repl seg (s2 :: rest)).1 =
      prev :: seg :: s2 :: rest
    rw [ih (SOall_tail r prev _ h)]

theorem pass_fix : ∀ (l : List SRule) (segs : List (List Char)),
    (∀ rs ∈ l, SOall rs segs) → passSegs l segs = segs := by
  intro l
  induction l with
  | nil => intro segs _; rfl
  | cons r t ih =>
    intro segs hall
    have h1 : (scanSegsR r segs).1 = segs := by
      cases segs with
      | nil => rfl
      | cons s0 rest => exact scan_fix r s0 rest (hall r (List.mem_cons_self r t))
    show passSegs t ((scanSegsR r segs).1) = segs
    rw [h1]
    exact ih segs (fun rs hrs => hall rs (List.mem_cons_of_mem r hrs))

theorem pass_inv : ∀ (l : List SRule), (∀ r ∈ l, r ∈ allScans) →
    ∀ (segs : List (List Char)), segs ≠ [] → segs.all qfB = true →
      (passSegs l segs ≠ [] ∧ (passSegs l segs).all qfB = true) ∧
      (∀ ru ∈ allScans, SOall ru segs → SOall ru (passSegs l segs)) ∧
      (∀ rs ∈ l, SOall rs (passSegs l segs)) := by
  intro l
  induction l with
  | nil =>
    intro _ segs hne hqf
    exact ⟨⟨hne, hqf⟩, fun ru _ h => h, fun rs h => absurd h (List.not_mem_nil rs)⟩
  | cons r t ih =>
    intro hmem segs hne hqf
    obtain ⟨s0, rest, rfl⟩ : ∃ s0 rest, segs = s0 :: rest := by
      cases segs with
      | nil => exact absurd rfl hne
      | cons s0 rest => exact ⟨s0, rest, rfl⟩
    have hrAll : r ∈ allScans := hmem r (List.mem_cons_self r t)
    have hOK : ruleOK r = true := List.all_eq_true.mp allScans_OK r hrAll
    simp only [ruleOK, Bool.and_eq_true] at hOK
    have hqfs : qfB s0 = true ∧ rest.all qfB = true := by
      simpa [List.all_cons, Bool.and_eq_true] using hqf
    have hne' : (scanSegsR r (s0 :: rest)).1 ≠ [] :=
      scanSegs_ne_nil r.attr r.ci r.pat r.repl s0 rest
    have hqf' : ((scanSegsR r (s0 :: rest)).1).all qfB = true :=
      @scanSegs_all_qf r.attr r.ci r.pat r.repl hOK.1.1 hOK.2 s0 rest hqfs.1 hqfs.2
    have hstep : ∀ ru ∈ allScans, (ru = r ∨ SOall ru (s0 :: rest)) →
        SOall ru ((scanSegsR r (s0 :: rest)).1) := by
      intro ru hru hin
      exact scan_SOall ru r hru hrAll s0 rest hqf hin
    have hmem' : ∀ x ∈ t, x ∈ allScans := fun x hx => hmem x (List.mem_cons_of_mem r hx)
    have IH := ih hmem' ((scanSegsR r (s0 :: rest)).1) hne' hqf'
    refine ⟨IH.1, ?_, ?_⟩
    · intro ru hru hso
      exact IH.2.1 ru hru (hstep ru hru (Or.inr hso))
    · intro rs hrs
      rcases List.mem_cons.mp hrs with rfl | hrs'
      · exact IH.2.1 rs hrAll (hstep rs hrAll (Or.inl rfl))
      · exact IH.2.2 rs hrs'

theorem passSegs_idem (segs : List (List Char)) (hne : segs ≠ [])
    (hqf : segs.all qfB = true) :
    passSegs allScans (passSegs allScans segs) = passSegs allScans segs := by
  have hinv := pass_inv allScans (fun r hr => hr) segs hne hqf
  exact pass_fix allScans _ hinv.2.2

theorem fullUpgrade_joinQ (segs : List (List Char)) (hne : segs ≠ [])
    (hqf : segs.all qfB = true) :
    fullUpgrade (joinQ segs) = joinQ (passSegs allScans segs) := by
  rw [fullUpgrade_as_scans]
  exact (runScans_joinQ allScans allScans_OK segs 0 hne hqf).1

/-- C4.  Idempotence of the whole transformation holds: running the
executable-type pass followed by the component-classid pass a second time
changes nothing, for every content.  (Proved via a segment-level invariant:
after one full pass every live site is self-replacing, so a second pass is
the identity.) -/
theorem C4_idempotence :
    ∀ content : List Char, fullUpgrade (fullUpgrade content) = fullUpgrade content := by
  intro content
  have h1 := fullUpgrade_joinQ (splitQ content) (splitQ_ne_nil content)
    (splitQ_all_qf content)
  rw [joinQ_splitQ] at h1
  rw [h1]
  have hinv := pass_inv allScans (fun r hr => hr) (splitQ content)
    (splitQ_ne_nil content) (splitQ_all_qf content)
  have h2 := fullUpgrade_joinQ (passSegs allScans (splitQ content))
    hinv.1.1 hinv.1.2
  rw [h2]
  rw [passSegs_idem (splitQ content) (splitQ_ne_nil content) (splitQ_all_qf content)]

/-- C4, counterexample to the spec's justification clause: it is NOT the case
that no rule's replacement value matches a rule's pattern — the wildcard
`DbMaintenanceReindexTask` rule's replacement value matches that very rule's
own pattern. -/
theorem C4_justification_false :
    (Pat.contains "DbMaintenanceReindexTask".data,
        "Microsoft.DbMaintenanceReindexTask".data) ∈ EXECUTABLE_TYPE_MAPPINGS ∧
      valueMatchesB false (Pat.contains "DbMaintenanceReindexTask".data)
        "Microsoft.DbMaintenanceReindexTask".data = true := by
  exact ⟨by decide, by decide⟩

/-! ### Replacement counts are occurrence counts -/

/-- Number of non-overlapping matched sites in the scan order, defined without
reference to any replacement text. -/
def occCountF (attr : List Char) (ci : Bool) (p : Pat) : Nat → List Char → Nat
  | 0, _ => 0
  | _ + 1, [] => 0
  | fuel + 1, c :: cs =>
    match tryMatch attr ci p (c :: cs) with
    | some rest => occCountF attr ci p fuel rest + 1
    | none => occCountF attr ci p fuel cs

/-- Number of discrete attribute occurrences a single `re.sub` call changes. -/
def occCount (attr : List Char) (ci : Bool) (p : Pat) (content : List Char) : Nat :=
  occCountF attr ci p content.length content

theorem scanCharF_count (attr : List Char) (ci : Bool) (p : Pat) (repl : List Char) :
    ∀ (fuel : Nat) (l : List Char),
      (scanCharF attr ci p repl fuel l).2 = occCountF attr ci p fuel l := by
  intro fuel
  induction fuel with
  | zero => intro l; rfl
  | succ f ih =>
    intro l
    cases l with
    | nil => rfl
    | cons c cs =>
      simp only [scanCharF, occCountF]
      cases hm : tryMatch attr ci p (c :: cs) with
      | some rest => simp [hm, ih rest]
      | none => simp [hm, ih cs]

theorem re_sub_count (attr : List Char) (ci : Bool) (p : Pat) (repl content : List Char) :
    (re_sub attr ci p repl content).2 = occCount attr ci p content :=
  scanCharF_count attr ci p repl content.length content

/-- C8.  Each category applies its rule list as a single fold, with no rule
listed twice (the tables and the per-category scan lists are duplicate-free),
and the count a scan returns is the number of discrete attribute occurrences
it rewrote — independent of the replacement text — not the number of patterns
tried: a content with two qualifying sites reports 2 although 28 scans ran,
and a content with none reports 0. -/
theorem C8_rule_once_and_counts :
    (EXECUTABLE_TYPE_MAPPINGS.Nodup ∧ COMPONENT_CLASSID_MAPPINGS.Nodup ∧
      GUID_COMPONENT_CLASSID_MAPPINGS.Nodup ∧ execScans.Nodup ∧ classidScans.Nodup) ∧
    (∀ content : List Char,
      simplify_executable_types content = runScans execScans (content, 0) ∧
      upgrade_component_classids content = runScans classidScans (content, 0)) ∧
    (∀ (attr : List Char) (ci : Bool) (p : Pat) (repl content : List Char),
      (re_sub attr ci p repl content).2 = occCount attr ci p content) ∧
    ((simplify_executable_types
        "DTS:ExecutableType=\"SSIS.Pipeline\" DTS:ExecutableType=\"SSIS.Pipeline.3\"".data).2
        = 2 ∧
      (simplify_executable_types "no sites here".data).2 = 0 ∧
      execScans.length = 28) := by
  refine ⟨⟨by decide, by decide, by decide, by decide, by decide⟩, ?_, ?_, ?_⟩
  · intro content
    exact ⟨simplify_as_scans content, classids_as_scans content⟩
  · intro attr ci p repl content
    exact re_sub_count attr ci p repl content
  · exact ⟨by decide, by decide, by decide⟩
